import Mathlib

/-!
Verification of the rusTree tree-manipulation and snapshot-diff core.

The repository ships only the documentation of this core (README, the mdBook
under docs/, and the architecture notes); the Rust sources of the core
components themselves are not part of the tree.  Every operational definition
below is therefore modelled from the specification and the in-repo
documentation, as indicated by its doc comment.
-/

namespace RusTree

/-! ## Data model -/

/-- Modelled from the spec: the kind of a filesystem entry
(File | Directory | Symlink). -/
inductive NodeKind where
  | file
  | directory
  | symlink
deriving DecidableEq, Repr

/-- Modelled from the spec: immutable per-entry data.  `path` is the list of
slash-separated segments, `depth` the segment count from the root; `size`,
times, analysis counts and the content fingerprint are optional metadata.
The time/count fields beyond the spec's data model mirror the fields that
`NodeInfo` is documented to carry (docs/src/architecture/modules.md), which
back the extra sort keys. -/
structure NodeRecord where
  path : List String
  kind : NodeKind
  depth : Nat
  size : Option Nat := none
  modified_time : Option Int := none
  change_time : Option Int := none
  create_time : Option Int := none
  line_count : Option Nat := none
  word_count : Option Nat := none
  custom_score : Option Int := none
  content_fingerprint : Option Nat := none
deriving DecidableEq, Repr

/-- Modelled from the spec: transient hierarchical wrapper owning an ordered
sequence of child TempNodes plus its NodeRecord. -/
inductive TempNode where
  | mk (info : NodeRecord) (children : List TempNode)

def TempNode.info : TempNode → NodeRecord
  | .mk r _ => r

def TempNode.children : TempNode → List TempNode
  | .mk _ cs => cs

/-- Induction over a TempNode through all members of its child list. -/
theorem TempNode.ind {P : TempNode → Prop}
    (h : ∀ r cs, (∀ t ∈ cs, P t) → P (.mk r cs)) : ∀ t, P t :=
  @TempNode.rec P (fun l => ∀ x ∈ l, P x)
    (fun r cs ih => h r cs ih)
    (fun x hx => absurd hx (List.not_mem_nil x))
    (fun hd tl ihh iht x hx => by
      rcases List.mem_cons.mp hx with h1 | h2
      · exact h1 ▸ ihh
      · exact iht x h2)

mutual

def tnBeq : TempNode → TempNode → Bool
  | .mk r cs, .mk r' cs' => decide (r = r') && tnBeqList cs cs'

def tnBeqList : List TempNode → List TempNode → Bool
  | [], [] => true
  | [], _ :: _ => false
  | _ :: _, [] => false
  | t :: ts, u :: us => tnBeq t u && tnBeqList ts us

end

theorem tnBeqList_iff_of (ts : List TempNode)
    (hts : ∀ x ∈ ts, ∀ u, tnBeq x u = true ↔ x = u) :
    ∀ us, tnBeqList ts us = true ↔ ts = us := by
  induction ts with
  | nil => intro us; cases us <;> simp [tnBeqList]
  | cons t ts ih =>
    intro us
    cases us with
    | nil => simp [tnBeqList]
    | cons u us =>
      have h1 := hts t (List.mem_cons_self t ts) u
      have h2 := ih (fun x hx => hts x (List.mem_cons_of_mem t hx)) us
      simp [tnBeqList, h1, h2]

theorem tnBeq_iff : ∀ t u : TempNode, tnBeq t u = true ↔ t = u := by
  intro t
  induction t using TempNode.ind with
  | h r cs ih =>
    intro u
    cases u with
    | mk r' cs' =>
      have := tnBeqList_iff_of cs ih cs'
      simp [tnBeq, this]

instance : DecidableEq TempNode := fun t u =>
  decidable_of_iff (tnBeq t u = true) (tnBeq_iff t u)

/-- The final path segment, the entry's display name. -/
def nameOf (r : NodeRecord) : String := r.path.getLastD ""

/-! ## Comparator framework

Three-way comparators (Ordering-valued) with the laws needed to reason
about sorting: orientation, transitivity of the strict part, and congruence
of the equal part. -/

theorem swap_eq_lt_iff {o : Ordering} : o.swap = .lt ↔ o = .gt := by
  cases o <;> simp [Ordering.swap]

theorem swap_eq_eq_iff {o : Ordering} : o.swap = .eq ↔ o = .eq := by
  cases o <;> simp [Ordering.swap]

theorem swap_eq_gt_iff {o : Ordering} : o.swap = .gt ↔ o = .lt := by
  cases o <;> simp [Ordering.swap]

theorem then_eq_lt_iff {o p : Ordering} : o.then p = .lt ↔ (o = .lt ∨ (o = .eq ∧ p = .lt)) := by
  cases o <;> simp [Ordering.then]

theorem then_eq_eq_iff {o p : Ordering} : o.then p = .eq ↔ (o = .eq ∧ p = .eq) := by
  cases o <;> simp [Ordering.then]

/-- Three-way comparison through a key function into a linear order. -/
def cmpOf {α : Type u} {β : Type v} [LinearOrder β] (f : α → β) (a b : α) : Ordering :=
  if f a < f b then .lt else if f b < f a then .gt else .eq

theorem cmpOf_eq_lt {α : Type u} {β : Type v} [LinearOrder β] {f : α → β} {a b : α} :
    cmpOf f a b = .lt ↔ f a < f b := by
  unfold cmpOf
  split_ifs with h1 h2 <;> simp [h1]

theorem cmpOf_eq_gt {α : Type u} {β : Type v} [LinearOrder β] {f : α → β} {a b : α} :
    cmpOf f a b = .gt ↔ f b < f a := by
  unfold cmpOf
  split_ifs with h1 h2
  · simp [asymm h1]
  · simp [h2]
  · simp [h2]

theorem cmpOf_eq_eq {α : Type u} {β : Type v} [LinearOrder β] {f : α → β} {a b : α} :
    cmpOf f a b = .eq ↔ f a = f b := by
  unfold cmpOf
  split_ifs with h1 h2
  · simp [ne_of_lt h1]
  · simp [ne_of_gt h2]
  · simp [le_antisymm (not_lt.mp h2) (not_lt.mp h1)]

def natCmp (m n : Nat) : Ordering := cmpOf id m n

def intCmp (m n : Int) : Ordering := cmpOf id m n

def charCmp (a b : Char) : Ordering := cmpOf Char.toNat a b

/-- Lexicographic comparison of lists by an element comparator. -/
def listCmp {α : Type u} (c : α → α → Ordering) : List α → List α → Ordering
  | [], [] => .eq
  | [], _ :: _ => .lt
  | _ :: _, [] => .gt
  | a :: as, b :: bs => (c a b).then (listCmp c as bs)

/-- Byte-order (code-point order) comparison of strings. -/
def strCmp (a b : String) : Ordering := listCmp charCmp a.data b.data

/-- The laws a comparator must satisfy for sorting to behave:
swapping the arguments swaps the verdict, the strict part is transitive,
and equal elements compare the same way against everything. -/
structure LawfulCmp {α : Type u} (c : α → α → Ordering) : Prop where
  symm : ∀ a b, (c a b).swap = c b a
  lt_trans : ∀ {a b d}, c a b = .lt → c b d = .lt → c a d = .lt
  eq_congr : ∀ {a b}, c a b = .eq → ∀ d, c a d = c b d

namespace LawfulCmp

variable {α : Type u} {c : α → α → Ordering}

theorem refl (h : LawfulCmp c) (a : α) : c a a = .eq := by
  have hs := h.symm a a
  cases hx : c a a
  · rw [hx] at hs
    exact absurd hs (by decide)
  · rfl
  · rw [hx] at hs
    exact absurd hs (by decide)

theorem gt_iff_lt (h : LawfulCmp c) {a b : α} : c a b = .gt ↔ c b a = .lt := by
  rw [← h.symm b a, swap_eq_gt_iff]

theorem eq_symm (h : LawfulCmp c) {a b : α} (hab : c a b = .eq) : c b a = .eq := by
  rw [← h.symm a b, hab]
  rfl

theorem eq_congr_right (h : LawfulCmp c) {a b : α} (hab : c a b = .eq) (d : α) :
    c d a = c d b := by
  rw [← h.symm a d, ← h.symm b d, h.eq_congr hab d]

theorem le_trans (h : LawfulCmp c) {a b d : α}
    (h1 : c a b ≠ .gt) (h2 : c b d ≠ .gt) : c a d ≠ .gt := by
  cases hab : c a b with
  | gt => exact absurd hab h1
  | eq => rw [h.eq_congr hab d]; exact h2
  | lt =>
    cases hbd : c b d with
    | gt => exact absurd hbd h2
    | eq =>
      rw [← h.eq_congr_right hbd a, hab]
      simp
    | lt =>
      rw [h.lt_trans hab hbd]
      simp

theorem le_total (h : LawfulCmp c) (a b : α) : c a b ≠ .gt ∨ c b a ≠ .gt := by
  by_cases hx : c a b = .gt
  · right
    rw [(h.gt_iff_lt).mp hx]
    simp
  · left; exact hx

end LawfulCmp

theorem lawful_cmpOf {α : Type u} {β : Type v} [LinearOrder β] (f : α → β) :
    LawfulCmp (cmpOf f) := by
  constructor
  · intro a b
    rcases lt_trichotomy (f a) (f b) with h | h | h
    · rw [cmpOf_eq_lt.mpr h, (cmpOf_eq_gt (f := f)).mpr h]
      rfl
    · rw [cmpOf_eq_eq.mpr h, (cmpOf_eq_eq (f := f)).mpr h.symm]
      rfl
    · rw [cmpOf_eq_gt.mpr h, (cmpOf_eq_lt (f := f)).mpr h]
      rfl
  · intro a b d hab hbd
    exact cmpOf_eq_lt.mpr (lt_trans (cmpOf_eq_lt.mp hab) (cmpOf_eq_lt.mp hbd))
  · intro a b hab d
    unfold cmpOf
    rw [cmpOf_eq_eq.mp hab]

theorem lawful_comap {α : Type u} {β : Type v} {c : β → β → Ordering}
    (f : α → β) (h : LawfulCmp c) : LawfulCmp (fun a b => c (f a) (f b)) := by
  constructor
  · intro a b; exact h.symm (f a) (f b)
  · intro a b d h1 h2; exact h.lt_trans h1 h2
  · intro a b h1 d; exact h.eq_congr h1 (f d)

theorem lawful_swap {α : Type u} {c : α → α → Ordering} (h : LawfulCmp c) :
    LawfulCmp (fun a b => (c a b).swap) := by
  constructor
  · intro a b
    rw [← h.symm a b]
  · intro a b d h1 h2
    rw [swap_eq_lt_iff] at h1 h2 ⊢
    exact (h.gt_iff_lt).mpr
      (h.lt_trans ((h.gt_iff_lt).mp h2) ((h.gt_iff_lt).mp h1))
  · intro a b h1 d
    rw [swap_eq_eq_iff] at h1
    rw [h.eq_congr h1 d]

theorem lawful_then {α : Type u} {c c' : α → α → Ordering}
    (h : LawfulCmp c) (h' : LawfulCmp c') :
    LawfulCmp (fun a b => (c a b).then (c' a b)) := by
  constructor
  · intro a b
    rw [← h.symm a b, ← h'.symm a b]
    cases c a b <;> cases c' a b <;> rfl
  · intro a b d h1 h2
    rcases then_eq_lt_iff.mp h1 with hab | ⟨hab, hab'⟩ <;>
      rcases then_eq_lt_iff.mp h2 with hbd | ⟨hbd, hbd'⟩
    · exact then_eq_lt_iff.mpr (Or.inl (h.lt_trans hab hbd))
    · exact then_eq_lt_iff.mpr (Or.inl (by rw [← h.eq_congr_right hbd a]; exact hab))
    · exact then_eq_lt_iff.mpr (Or.inl (by rw [h.eq_congr hab d]; exact hbd))
    · refine then_eq_lt_iff.mpr (Or.inr ⟨?_, h'.lt_trans hab' hbd'⟩)
      rw [h.eq_congr hab d]
      exact hbd
  · intro a b hab d
    rcases then_eq_eq_iff.mp hab with ⟨h1, h2⟩
    rw [h.eq_congr h1 d, h'.eq_congr h2 d]

theorem lawful_const_eq (α : Type u) : LawfulCmp (fun _ _ : α => Ordering.eq) := by
  refine ⟨fun a b => rfl, ?_, fun _ d => rfl⟩
  intro a b d h1 _
  exact absurd h1 (by simp)

theorem lawful_listCmp {α : Type u} {c : α → α → Ordering} (h : LawfulCmp c) :
    LawfulCmp (listCmp c) := by
  constructor
  · intro a
    induction a with
    | nil => intro b; cases b <;> rfl
    | cons x xs ih =>
      intro b
      cases b with
      | nil => rfl
      | cons y ys =>
        show ((c x y).then (listCmp c xs ys)).swap = (c y x).then (listCmp c ys xs)
        rw [← h.symm x y, ← ih ys]
        cases c x y <;> cases listCmp c xs ys <;> rfl
  · intro a
    induction a with
    | nil =>
      intro b d h1 h2
      cases b with
      | nil => exact h2
      | cons y ys =>
        cases d with
        | nil => simp [listCmp] at h2
        | cons z zs => simp [listCmp]
    | cons x xs ih =>
      intro b d h1 h2
      cases b with
      | nil => simp [listCmp] at h1
      | cons y ys =>
        cases d with
        | nil => simp [listCmp] at h2
        | cons z zs =>
          simp only [listCmp] at h1 h2 ⊢
          rcases then_eq_lt_iff.mp h1 with hxy | ⟨hxy, hxy'⟩ <;>
            rcases then_eq_lt_iff.mp h2 with hyz | ⟨hyz, hyz'⟩
          · exact then_eq_lt_iff.mpr (Or.inl (h.lt_trans hxy hyz))
          · exact then_eq_lt_iff.mpr (Or.inl (by rw [← h.eq_congr_right hyz x]; exact hxy))
          · exact then_eq_lt_iff.mpr (Or.inl (by rw [h.eq_congr hxy z]; exact hyz))
          · refine then_eq_lt_iff.mpr (Or.inr ⟨?_, ih hxy' hyz'⟩)
            rw [h.eq_congr hxy z]
            exact hyz
  · intro a
    induction a with
    | nil =>
      intro b h1 d
      cases b with
      | nil => rfl
      | cons y ys => simp [listCmp] at h1
    | cons x xs ih =>
      intro b h1 d
      cases b with
      | nil => simp [listCmp] at h1
      | cons y ys =>
        simp only [listCmp] at h1
        rcases then_eq_eq_iff.mp h1 with ⟨hxy, hxs⟩
        cases d with
        | nil => simp [listCmp]
        | cons z zs =>
          simp only [listCmp]
          rw [h.eq_congr hxy z, ih hxs zs]

theorem lawful_charCmp : LawfulCmp charCmp := lawful_cmpOf Char.toNat

theorem lawful_strCmp : LawfulCmp strCmp :=
  lawful_comap String.data (lawful_listCmp lawful_charCmp)

theorem listCmp_eq_of_eq {α : Type u} {c : α → α → Ordering}
    (hinj : ∀ {a b : α}, c a b = .eq → a = b) :
    ∀ {l₁ l₂ : List α}, listCmp c l₁ l₂ = .eq → l₁ = l₂ := by
  intro l₁
  induction l₁ with
  | nil =>
    intro l₂ h
    cases l₂ with
    | nil => rfl
    | cons b bs => simp [listCmp] at h
  | cons a as ih =>
    intro l₂ h
    cases l₂ with
    | nil => simp [listCmp] at h
    | cons b bs =>
      simp only [listCmp] at h
      rcases then_eq_eq_iff.mp h with ⟨h1, h2⟩
      rw [hinj h1, ih h2]

theorem charCmp_eq_of_eq {a b : Char} (h : charCmp a b = .eq) : a = b := by
  have := cmpOf_eq_eq.mp h
  exact Char.eq_of_val_eq (by
    have h2 : a.val.toNat = b.val.toNat := this
    exact UInt32.toNat.inj h2)

theorem strCmp_eq_of_eq {a b : String} (h : strCmp a b = .eq) : a = b := by
  unfold strCmp at h
  have := listCmp_eq_of_eq (fun hab => charCmp_eq_of_eq hab) h
  cases a
  cases b
  exact congrArg String.mk this

/-! ## SiblingSorter

Modelled from the spec (section 4.2) and the documented `SortingOptions` /
`DirectoryFileOrder` types: reorder each node's children recursively by a
pluggable key, with a directory/file partition step that runs before
key-based comparison and is never reversed, a byte-order name fallback for
key ties, and the ReverseFlag inverting only the within-partition verdict.
SortKey None performs no reordering, so its comparator and its tie-break
are both the constant Eq comparator. -/

/-- Modelled from the spec: the available sort keys. -/
inductive SortKey where
  | name
  | version
  | size
  | mtime
  | ctime
  | crtime
  | lines
  | words
  | custom
  | none
deriving DecidableEq, Repr

/-- Modelled from the docs: directory-vs-file ordering policy
(Default | DirectoriesFirst | FilesFirst). -/
inductive DirectoryFileOrder where
  | default
  | dirsFirst
  | filesFirst
deriving DecidableEq, Repr

/-- Modelled from the docs (library_usage/concepts.md): sorting options.
`files_before_directories` defaults to true and applies when sorting by
size under the Default policy. -/
structure SortingOptions where
  sort_by : SortKey := .name
  reverse_sort : Bool := false
  files_before_directories : Bool := true
  directory_file_order : DirectoryFileOrder := .default
deriving DecidableEq, Repr

/-- A chunk of a version string: a run of digits (by value) or a run of
non-digit characters. -/
inductive VChunk where
  | num (n : Nat)
  | txt (s : List Char)
deriving DecidableEq, Repr

def digitsVal (l : List Char) : Nat := l.foldl (fun n c => n * 10 + (c.toNat - 48)) 0

/-- Modelled from the spec: split a name into alternating runs of digits and
non-digits. -/
def vchunks : List Char → List VChunk
  | [] => []
  | c :: cs =>
    if c.isDigit then
      .num (digitsVal (c :: cs.takeWhile Char.isDigit)) :: vchunks (cs.dropWhile Char.isDigit)
    else
      .txt (c :: cs.takeWhile (fun d => !d.isDigit)) :: vchunks (cs.dropWhile (fun d => !d.isDigit))
termination_by l => l.length
decreasing_by
  · exact Nat.lt_succ_of_le (List.dropWhile_sublist Char.isDigit).length_le
  · exact Nat.lt_succ_of_le (List.dropWhile_sublist (fun d : Char => !d.isDigit)).length_le

/-- Compare two version chunks: numeric runs sort before textual runs,
numeric runs compare by integer value, textual runs lexicographically. -/
def chunkCmp : VChunk → VChunk → Ordering
  | .num m, .num n => natCmp m n
  | .num _, .txt _ => .lt
  | .txt _, .num _ => .gt
  | .txt s, .txt t => listCmp charCmp s t

theorem lawful_chunkCmp : LawfulCmp chunkCmp := by
  have hl := lawful_listCmp lawful_charCmp
  have hn : LawfulCmp natCmp := lawful_cmpOf id
  constructor
  · intro a b
    cases a <;> cases b
    · exact hn.symm _ _
    · rfl
    · rfl
    · exact hl.symm _ _
  · intro a b d h1 h2
    cases a with
    | num m =>
      cases b with
      | num n =>
        cases d with
        | num k => exact hn.lt_trans h1 h2
        | txt u => rfl
      | txt t =>
        cases d with
        | num k => exact nomatch h2
        | txt u => rfl
    | txt s =>
      cases b with
      | num n => exact nomatch h1
      | txt t =>
        cases d with
        | num k => exact nomatch h2
        | txt u => exact hl.lt_trans h1 h2
  · intro a b h1
    cases a with
    | num m =>
      cases b with
      | num n =>
        have hmn : m = n := cmpOf_eq_eq.mp h1
        subst hmn
        intro d
        rfl
      | txt t => exact nomatch h1
    | txt s =>
      cases b with
      | num n => exact nomatch h1
      | txt t =>
        have hst : s = t := listCmp_eq_of_eq (fun h => charCmp_eq_of_eq h) h1
        subst hst
        intro d
        rfl

/-- The version-string comparator on names. -/
def versionCmp (a b : String) : Ordering := listCmp chunkCmp (vchunks a.data) (vchunks b.data)

theorem lawful_versionCmp : LawfulCmp versionCmp :=
  lawful_comap (fun s : String => vchunks s.data) (lawful_listCmp lawful_chunkCmp)

/-- Modelled from the spec and the documented sort-direction defaults:
the per-key record comparator.  Name/Version ascend; Size, Lines and Words
descend (largest/most first); the time keys ascend (oldest first); Custom
ascends on the custom score; None compares everything equal. -/
def keyCmp : SortKey → NodeRecord → NodeRecord → Ordering
  | .name, a, b => strCmp (nameOf a) (nameOf b)
  | .version, a, b => versionCmp (nameOf a) (nameOf b)
  | .size, a, b => natCmp (b.size.getD 0) (a.size.getD 0)
  | .mtime, a, b => intCmp (a.modified_time.getD 0) (b.modified_time.getD 0)
  | .ctime, a, b => intCmp (a.change_time.getD 0) (b.change_time.getD 0)
  | .crtime, a, b => intCmp (a.create_time.getD 0) (b.create_time.getD 0)
  | .lines, a, b => natCmp (b.line_count.getD 0) (a.line_count.getD 0)
  | .words, a, b => natCmp (b.word_count.getD 0) (a.word_count.getD 0)
  | .custom, a, b => intCmp (a.custom_score.getD 0) (b.custom_score.getD 0)
  | .none, _, _ => .eq

/-- Byte-order name comparison as the tie-break for every key except None
(None must perform no reordering at all). -/
def tieCmp (k : SortKey) (a b : NodeRecord) : Ordering :=
  if k = .none then .eq else strCmp (nameOf a) (nameOf b)

/-- Invert an Ordering when the reverse flag is set. -/
def revIf (rev : Bool) (x : Ordering) : Ordering := if rev then x.swap else x

/-- Modelled from the docs: the rank of a node in the directory/file
partition step.  The policy-preferred group gets rank 0; under the Default
policy, size sorting with `files_before_directories` places files and
symlinks (rank 0) before directories (rank 1); otherwise everything shares
one group. -/
def groupRank (o : SortingOptions) (t : TempNode) : Nat :=
  match o.directory_file_order with
  | .dirsFirst => if t.info.kind = .directory then 0 else 1
  | .filesFirst => if t.info.kind = .directory then 1 else 0
  | .default =>
    if o.sort_by = .size ∧ o.files_before_directories then
      (if t.info.kind = .directory then 1 else 0)
    else 0

/-- Modelled from the spec: compare two siblings.  Partition rank first
(never reversed), then the reversible within-partition comparison: the
chosen key's comparator with the byte-order name fallback. -/
def compare_siblings_with_options (o : SortingOptions) (a b : TempNode) : Ordering :=
  (cmpOf (groupRank o) a b).then
    (revIf o.reverse_sort ((keyCmp o.sort_by a.info b.info).then (tieCmp o.sort_by a.info b.info)))

theorem lawful_flip {α : Type u} {c : α → α → Ordering} (h : LawfulCmp c) :
    LawfulCmp (fun a b => c b a) := by
  constructor
  · intro a b
    exact h.symm b a
  · intro a b d h1 h2
    exact h.lt_trans h2 h1
  · intro a b h1 d
    exact h.eq_congr_right (h.eq_symm h1) d

theorem lawful_ext {α : Type u} {c c' : α → α → Ordering}
    (hh : ∀ a b, c a b = c' a b) (h : LawfulCmp c') : LawfulCmp c := by
  constructor
  · intro a b
    rw [hh a b, hh b a]
    exact h.symm a b
  · intro a b d h1 h2
    rw [hh] at h1 h2 ⊢
    exact h.lt_trans h1 h2
  · intro a b h1 d
    rw [hh] at h1
    rw [hh, hh]
    exact h.eq_congr h1 d

theorem lawful_keyCmp (k : SortKey) : LawfulCmp (keyCmp k) := by
  cases k
  case name =>
    exact lawful_ext (fun a b => rfl) (lawful_comap (fun r => nameOf r) lawful_strCmp)
  case version =>
    exact lawful_ext (fun a b => rfl) (lawful_comap (fun r => nameOf r) lawful_versionCmp)
  case size =>
    exact lawful_ext (fun a b => rfl)
      (lawful_flip (lawful_cmpOf (fun r : NodeRecord => r.size.getD 0)))
  case mtime =>
    exact lawful_ext (fun a b => rfl) (lawful_cmpOf (fun r : NodeRecord => r.modified_time.getD 0))
  case ctime =>
    exact lawful_ext (fun a b => rfl) (lawful_cmpOf (fun r : NodeRecord => r.change_time.getD 0))
  case crtime =>
    exact lawful_ext (fun a b => rfl) (lawful_cmpOf (fun r : NodeRecord => r.create_time.getD 0))
  case lines =>
    exact lawful_ext (fun a b => rfl)
      (lawful_flip (lawful_cmpOf (fun r : NodeRecord => r.line_count.getD 0)))
  case words =>
    exact lawful_ext (fun a b => rfl)
      (lawful_flip (lawful_cmpOf (fun r : NodeRecord => r.word_count.getD 0)))
  case custom =>
    exact lawful_ext (fun a b => rfl) (lawful_cmpOf (fun r : NodeRecord => r.custom_score.getD 0))
  case none =>
    exact lawful_ext (fun a b => rfl) (lawful_const_eq NodeRecord)

theorem lawful_tieCmp (k : SortKey) : LawfulCmp (tieCmp k) := by
  unfold tieCmp
  by_cases hk : k = SortKey.none
  · simp only [hk, if_pos rfl]
    exact lawful_const_eq NodeRecord
  · simp only [if_neg hk]
    exact lawful_comap (fun r => nameOf r) lawful_strCmp

theorem lawful_revIf {α : Type u} {c : α → α → Ordering} (rev : Bool) (h : LawfulCmp c) :
    LawfulCmp (fun a b => revIf rev (c a b)) := by
  unfold revIf
  cases rev
  · simpa using h
  · simpa using lawful_swap h

theorem lawful_compare_siblings (o : SortingOptions) :
    LawfulCmp (compare_siblings_with_options o) := by
  have h1 := lawful_cmpOf (groupRank o)
  have h2 := lawful_then (lawful_comap TempNode.info (lawful_keyCmp o.sort_by))
    (lawful_comap TempNode.info (lawful_tieCmp o.sort_by))
  have h3 := lawful_revIf (c := fun a b : TempNode =>
    (keyCmp o.sort_by a.info b.info).then (tieCmp o.sort_by a.info b.info)) o.reverse_sort h2
  exact lawful_ext (fun a b => rfl) (lawful_then h1 h3)

def sibLe (o : SortingOptions) (a b : TempNode) : Prop :=
  compare_siblings_with_options o a b ≠ .gt

instance (o : SortingOptions) : DecidableRel (sibLe o) := fun a b => by
  unfold sibLe
  infer_instance

mutual

/-- Modelled from the spec: recursively reorder a node's children with a
stable sort by the sibling comparator. -/
def sortNode (o : SortingOptions) : TempNode → TempNode
  | .mk r cs => .mk r (List.insertionSort (sibLe o) (sortEach o cs))

/-- Apply `sortNode` to every member of a sibling list. -/
def sortEach (o : SortingOptions) : List TempNode → List TempNode
  | [] => []
  | t :: ts => sortNode o t :: sortEach o ts

end

/-- Modelled from the docs: sort a forest of siblings recursively. -/
def sort_nodes_with_options (o : SortingOptions) (ts : List TempNode) : List TempNode :=
  List.insertionSort (sibLe o) (sortEach o ts)

theorem sortEach_eq_map (o : SortingOptions) (l : List TempNode) :
    sortEach o l = l.map (sortNode o) := by
  induction l with
  | nil => rfl
  | cons t ts ih => simp [sortEach, ih]

theorem sortEach_id (o : SortingOptions) (l : List TempNode)
    (h : ∀ x ∈ l, sortNode o x = x) : sortEach o l = l := by
  induction l with
  | nil => rfl
  | cons t ts ih =>
    rw [sortEach, h t (List.mem_cons_self t ts), ih (fun x hx => h x (List.mem_cons_of_mem t hx))]

theorem sibling_sort_sorted (o : SortingOptions) (l : List TempNode) :
    List.Sorted (sibLe o) (List.insertionSort (sibLe o) l) := by
  haveI : IsTotal TempNode (sibLe o) :=
    ⟨fun a b => (lawful_compare_siblings o).le_total a b⟩
  haveI : IsTrans TempNode (sibLe o) :=
    ⟨fun a b d h1 h2 => (lawful_compare_siblings o).le_trans h1 h2⟩
  exact List.sorted_insertionSort _ l

theorem sortNode_idem (o : SortingOptions) : ∀ t, sortNode o (sortNode o t) = sortNode o t := by
  intro t
  induction t using TempNode.ind with
  | h r cs ih =>
    simp only [sortNode]
    congr 1
    have hmem : ∀ x ∈ List.insertionSort (sibLe o) (sortEach o cs), sortNode o x = x := by
      intro x hx
      have hx2 : x ∈ sortEach o cs := (List.mem_insertionSort _).mp hx
      rw [sortEach_eq_map] at hx2
      obtain ⟨y, hy, rfl⟩ := List.mem_map.mp hx2
      exact ih y hy
    rw [sortEach_id o _ hmem]
    exact (sibling_sort_sorted o (sortEach o cs)).insertionSort_eq

/-- A leaf node carrying only a name, used in concrete sorting examples. -/
def leafNamed (s : String) : TempNode :=
  .mk { path := [s], kind := .file, depth := 0 } []

/-- A leaf node with a name, a kind and a size, for the size-sort examples. -/
def sizedNode (s : String) (k : NodeKind) (n : Nat) : TempNode :=
  .mk { path := [s], kind := k, depth := 0, size := some n } []

/-- C7: SiblingSorter realizes the three-step reference order: (i) sorting by
Name over the sibling names "b", "a", "B", "A" yields "A", "B", "a", "b"
(byte order); (ii)/(iii) under a non-Default policy the policy-preferred
partition comes first for every SortKey and ReverseFlag, never reversed;
(iv) whenever the key comparator deems two same-partition nodes equal (and
the key is not None), the verdict is the byte-order name comparison, subject
only to the reverse flag; (v) the reverse flag inverts exactly the
within-partition comparison. -/
theorem sorter_reference_behavior :
    (sort_nodes_with_options {} [leafNamed "b", leafNamed "a", leafNamed "B", leafNamed "A"] =
      [leafNamed "A", leafNamed "B", leafNamed "a", leafNamed "b"]) ∧
    (∀ (o : SortingOptions) (a b : TempNode), o.directory_file_order = .dirsFirst →
      a.info.kind = .directory → b.info.kind ≠ .directory →
      compare_siblings_with_options o a b = .lt) ∧
    (∀ (o : SortingOptions) (a b : TempNode), o.directory_file_order = .filesFirst →
      a.info.kind ≠ .directory → b.info.kind = .directory →
      compare_siblings_with_options o a b = .lt) ∧
    (∀ (o : SortingOptions) (a b : TempNode), groupRank o a = groupRank o b →
      o.sort_by ≠ .none → keyCmp o.sort_by a.info b.info = .eq →
      compare_siblings_with_options o a b =
        revIf o.reverse_sort (strCmp (nameOf a.info) (nameOf b.info))) ∧
    (∀ (o : SortingOptions) (a b : TempNode), groupRank o a = groupRank o b →
      compare_siblings_with_options { o with reverse_sort := true } a b =
        (compare_siblings_with_options { o with reverse_sort := false } a b).swap) := by
  refine ⟨by decide, ?_, ?_, ?_, ?_⟩
  · intro o a b hord ha hb
    have hrank : groupRank o a = 0 := by simp [groupRank, hord, ha]
    have hrank' : groupRank o b = 1 := by simp [groupRank, hord, hb]
    have : cmpOf (groupRank o) a b = .lt := cmpOf_eq_lt.mpr (by rw [hrank, hrank']; decide)
    unfold compare_siblings_with_options
    rw [this]
    rfl
  · intro o a b hord ha hb
    have hrank : groupRank o a = 0 := by simp [groupRank, hord, ha]
    have hrank' : groupRank o b = 1 := by simp [groupRank, hord, hb]
    have : cmpOf (groupRank o) a b = .lt := cmpOf_eq_lt.mpr (by rw [hrank, hrank']; decide)
    unfold compare_siblings_with_options
    rw [this]
    rfl
  · intro o a b hrank hkey hcmp
    unfold compare_siblings_with_options
    rw [cmpOf_eq_eq.mpr hrank, hcmp]
    have : tieCmp o.sort_by a.info b.info = strCmp (nameOf a.info) (nameOf b.info) := by
      unfold tieCmp
      rw [if_neg hkey]
    rw [this]
    cases hx : strCmp (nameOf a.info) (nameOf b.info) <;> rfl
  · intro o a b hrank
    unfold compare_siblings_with_options
    have h0 : groupRank { o with reverse_sort := true } = groupRank o := rfl
    have h1 : groupRank { o with reverse_sort := false } = groupRank o := rfl
    rw [h0, h1, cmpOf_eq_eq.mpr hrank]
    show (revIf true _) = ((Ordering.eq).then (revIf false _)).swap
    unfold revIf
    simp only [if_pos rfl, if_neg]
    cases (keyCmp o.sort_by a.info b.info).then (tieCmp o.sort_by a.info b.info) <;> rfl

/-- C7 witness: the partition, fallback and reverse clauses hold at concrete
inputs. -/
theorem sorter_reference_behavior_witness :
    compare_siblings_with_options { directory_file_order := .dirsFirst }
        (sizedNode "d" .directory 5) (sizedNode "a" .file 1) = .lt ∧
    compare_siblings_with_options { directory_file_order := .filesFirst }
        (sizedNode "a" .file 1) (sizedNode "d" .directory 5) = .lt ∧
    compare_siblings_with_options { sort_by := .mtime }
        (leafNamed "b") (leafNamed "a") =
      revIf false (strCmp (nameOf (leafNamed "b").info) (nameOf (leafNamed "a").info)) ∧
    compare_siblings_with_options { reverse_sort := true } (leafNamed "a") (leafNamed "b") =
      (compare_siblings_with_options { reverse_sort := false } (leafNamed "a") (leafNamed "b")).swap :=
  ⟨sorter_reference_behavior.2.1 _ _ _ rfl rfl (by decide),
   sorter_reference_behavior.2.2.1 _ _ _ rfl (by decide) rfl,
   sorter_reference_behavior.2.2.2.1 _ _ _ rfl (by decide) (by decide),
   sorter_reference_behavior.2.2.2.2 { reverse_sort := false } _ _ rfl⟩

/-- C9: sorting is idempotent: for every tree and every combination of
SortKey, directory-order policy and ReverseFlag, sorting twice equals
sorting once, both for a single tree and for a forest of siblings. -/
theorem sort_idempotent (o : SortingOptions) :
    (∀ t, sortNode o (sortNode o t) = sortNode o t) ∧
    (∀ ts, sort_nodes_with_options o (sort_nodes_with_options o ts) =
      sort_nodes_with_options o ts) := by
  refine ⟨sortNode_idem o, ?_⟩
  intro ts
  unfold sort_nodes_with_options
  have hmem : ∀ x ∈ List.insertionSort (sibLe o) (sortEach o ts), sortNode o x = x := by
    intro x hx
    have hx2 : x ∈ sortEach o ts := (List.mem_insertionSort _).mp hx
    rw [sortEach_eq_map] at hx2
    obtain ⟨y, hy, rfl⟩ := List.mem_map.mp hx2
    exact sortNode_idem o y
  rw [sortEach_id o _ hmem]
  exact (sibling_sort_sorted o (sortEach o ts)).insertionSort_eq

/-- C10: with the default options, a Size sort is descending (largest first,
reverse gives smallest first) and groups files and symlinks before
directories, because `files_before_directories` defaults to true when
sorting by size even under the Default directory policy; with the flag
false the kinds intermingle purely by size (with the name fallback). -/
theorem size_sort_defaults :
    (∀ (a b : TempNode) (rev : Bool), a.info.kind ≠ .directory → b.info.kind = .directory →
      compare_siblings_with_options { sort_by := .size, reverse_sort := rev } a b = .lt) ∧
    (∀ a b : TempNode, (a.info.kind = .directory ↔ b.info.kind = .directory) →
      b.info.size.getD 0 < a.info.size.getD 0 →
      compare_siblings_with_options { sort_by := .size } a b = .lt) ∧
    (∀ a b : TempNode, (a.info.kind = .directory ↔ b.info.kind = .directory) →
      a.info.size.getD 0 < b.info.size.getD 0 →
      compare_siblings_with_options { sort_by := .size, reverse_sort := true } a b = .lt) ∧
    (∀ a b : TempNode,
      compare_siblings_with_options { sort_by := .size, files_before_directories := false } a b =
        (natCmp (b.info.size.getD 0) (a.info.size.getD 0)).then
          (strCmp (nameOf a.info) (nameOf b.info))) ∧
    (sort_nodes_with_options { sort_by := .size }
        [sizedNode "d" .directory 5, sizedNode "a" .file 1, sizedNode "z" .file 9] =
      [sizedNode "z" .file 9, sizedNode "a" .file 1, sizedNode "d" .directory 5]) ∧
    (sort_nodes_with_options { sort_by := .size, files_before_directories := false }
        [sizedNode "d" .directory 5, sizedNode "a" .file 1, sizedNode "z" .file 9] =
      [sizedNode "z" .file 9, sizedNode "d" .directory 5, sizedNode "a" .file 1]) := by
  refine ⟨?_, ?_, ?_, ?_, by decide, by decide⟩
  · intro a b rev ha hb
    have hrank : groupRank { sort_by := SortKey.size, reverse_sort := rev } a = 0 := by
      simp [groupRank, ha]
    have hrank' : groupRank { sort_by := SortKey.size, reverse_sort := rev } b = 1 := by
      simp [groupRank, hb]
    have : cmpOf (groupRank { sort_by := SortKey.size, reverse_sort := rev }) a b = .lt :=
      cmpOf_eq_lt.mpr (by rw [hrank, hrank']; decide)
    unfold compare_siblings_with_options
    rw [this]
    rfl
  · intro a b hk hsz
    have hrank : groupRank { sort_by := SortKey.size } a =
        groupRank { sort_by := SortKey.size } b := by
      by_cases hd : a.info.kind = .directory
      · simp [groupRank, hd, hk.mp hd]
      · have hbd : ¬ b.info.kind = .directory := fun hbd => hd (hk.mpr hbd)
        simp [groupRank, hd, hbd]
    unfold compare_siblings_with_options
    rw [cmpOf_eq_eq.mpr hrank]
    have hkey : keyCmp SortKey.size a.info b.info = .lt := cmpOf_eq_lt.mpr hsz
    show (keyCmp SortKey.size a.info b.info).then (tieCmp SortKey.size a.info b.info) = .lt
    exact then_eq_lt_iff.mpr (Or.inl hkey)
  · intro a b hk hsz
    have hrank : groupRank { sort_by := SortKey.size, reverse_sort := true } a =
        groupRank { sort_by := SortKey.size, reverse_sort := true } b := by
      by_cases hd : a.info.kind = .directory
      · simp [groupRank, hd, hk.mp hd]
      · have hbd : ¬ b.info.kind = .directory := fun hbd => hd (hk.mpr hbd)
        simp [groupRank, hd, hbd]
    unfold compare_siblings_with_options
    rw [cmpOf_eq_eq.mpr hrank]
    have hkey : keyCmp SortKey.size a.info b.info = .gt := cmpOf_eq_gt.mpr hsz
    have hthen : (keyCmp SortKey.size a.info b.info).then
        (tieCmp SortKey.size a.info b.info) = .gt := by
      rw [hkey]
      rfl
    show ((keyCmp SortKey.size a.info b.info).then (tieCmp SortKey.size a.info b.info)).swap = .lt
    exact swap_eq_lt_iff.mpr hthen
  · intro a b
    have hrank : groupRank { sort_by := SortKey.size, files_before_directories := false } a =
        groupRank { sort_by := SortKey.size, files_before_directories := false } b := by
      simp [groupRank]
    unfold compare_siblings_with_options
    rw [cmpOf_eq_eq.mpr hrank]
    rfl

/-! ## TreeBuilder and Flattener

Modelled from the spec (sections 4.1 and 4.4): the builder keeps a stack of
currently open directories; each record pops the stack until the top's
depth is one less than its own, becomes a child of that top, and is pushed
if it is itself a directory.  A frame with record `none` is the synthetic
bottom of the stack (depth -1) that collects the depth-0 roots.  The
flattener is the inverse pre-order traversal, recomputing depths. -/

/-- Modelled from the spec: the builder's error cases. -/
inductive TreeBuildError where
  | emptyInput
  | firstDepthNotZero
  | depthJump
deriving DecidableEq, Repr

/-- A builder stack frame: the open directory's record (`none` for the
synthetic bottom frame) and the children collected so far. -/
abbrev Frame := Option NodeRecord × List TempNode

/-- The depth of a frame's record; the synthetic bottom has depth -1. -/
def frameDepth : Option NodeRecord → Int
  | Option.none => -1
  | some r => r.depth

/-- One popping pass with explicit fuel (the recursion consumes one stack
frame per step, so the stack length is always enough fuel). -/
def popUntilFuel (d : Nat) : Nat → List Frame → List Frame
  | fuel + 1, (some r, cs) :: (p, ps) :: rest =>
    if (d : Int) - 1 < (r.depth : Int) then
      popUntilFuel d fuel ((p, ps ++ [TempNode.mk r cs]) :: rest)
    else (some r, cs) :: (p, ps) :: rest
  | _, s => s

/-- Pop (close) open directories until the top frame's depth is at most
`d - 1`; each closed directory becomes the last child of the frame below. -/
def popUntil (d : Nat) (s : List Frame) : List Frame := popUntilFuel d s.length s

/-- Modelled from the spec: insert one record into the builder stack:
pop until the top's depth is the record's depth minus one, fail with
`depthJump` if popping cannot reach exactly that depth, append the record
as a new child, and push it as an open frame if it is a directory. -/
def applyRecord (r : NodeRecord) (s : List Frame) : Except TreeBuildError (List Frame) :=
  match popUntil r.depth s with
  | [] => .error .emptyInput
  | (p, ps) :: rest =>
    if frameDepth p = (r.depth : Int) - 1 then
      if r.kind = .directory then .ok ((some r, []) :: (p, ps) :: rest)
      else .ok ((p, ps ++ [TempNode.mk r []]) :: rest)
    else .error .depthJump

/-- Run the builder over the whole record sequence. -/
def buildLoop : List NodeRecord → List Frame → Except TreeBuildError (List Frame)
  | [], s => .ok s
  | r :: rs, s =>
    match applyRecord r s with
    | .ok s' => buildLoop rs s'
    | .error e => .error e

/-- Fuelled collapse pass; as for popping, the stack length is enough fuel. -/
def collapseFuel : Nat → List Frame → List TempNode
  | _, [] => []
  | _, [(_, cs)] => cs
  | fuel + 1, (some r, cs) :: (p, ps) :: rest =>
    collapseFuel fuel ((p, ps ++ [TempNode.mk r cs]) :: rest)
  | _, (_, cs) :: _ :: _ => cs

/-- Close every remaining open directory and return the roots collected in
the bottom frame. -/
def collapseAll (s : List Frame) : List TempNode := collapseFuel s.length s

/-- Modelled from the spec: build the working forest from a flat record
sequence.  Fails on empty input, on a first record of nonzero depth, and on
any depth jump past parent-depth + 1. -/
def build_forest (records : List NodeRecord) : Except TreeBuildError (List TempNode) :=
  match records with
  | [] => .error .emptyInput
  | r :: _ =>
    if r.depth ≠ 0 then .error .firstDepthNotZero
    else match buildLoop records [(Option.none, [])] with
      | .ok s => .ok (collapseAll s)
      | .error e => .error e

/-- Modelled from the spec: the build output is the lone depth-0 node, or a
single synthetic root holding the roots when there are several. -/
def build_tree (records : List NodeRecord) : Except TreeBuildError TempNode :=
  match build_forest records with
  | .ok [t] => .ok t
  | .ok ts => .ok (TempNode.mk { path := [], kind := .directory, depth := 0 } ts)
  | .error e => .error e

mutual

/-- Modelled from the spec: flatten one node in depth-first pre-order,
emitting one record per TempNode with the depth recomputed from the
traversal. -/
def flattenNode (d : Nat) : TempNode → List NodeRecord
  | .mk r cs => { r with depth := d } :: flattenForest (d + 1) cs

/-- Modelled from the spec: flatten a forest in depth-first pre-order. -/
def flattenForest (d : Nat) : List TempNode → List NodeRecord
  | [] => []
  | t :: ts => flattenNode d t ++ flattenForest d ts

end

/-- The records already consumed by a builder stack, recovered by flattening
the partially built forest it denotes. -/
def stackFlatten : List Frame → List NodeRecord
  | [] => []
  | [(_, cs)] => flattenForest 0 cs
  | (some r, cs) :: f :: rest => stackFlatten (f :: rest) ++ r :: flattenForest (r.depth + 1) cs
  | (Option.none, _) :: _ :: _ => []

/-- The builder-stack invariant: from the top down, the frames are open
directories of consecutive depths d, d-1, ..., 0, above the synthetic
bottom frame of depth -1. -/
def spine : List Frame → Int → Prop
  | [], _ => False
  | (Option.none, _) :: rest, d => d = -1 ∧ rest = []
  | (some r, _) :: rest, d => (r.depth : Int) = d ∧ spine rest (d - 1)

/-- The stack depth a record leaves open after insertion: its own depth if
it is a directory (it is pushed), one less otherwise. -/
def nextDepth (r : NodeRecord) : Int :=
  if r.kind = .directory then (r.depth : Int) else (r.depth : Int) - 1

/-- The chain condition the builder needs from position depth `d` on. -/
def chainFrom : Int → List NodeRecord → Prop
  | _, [] => True
  | d, r :: rs => (r.depth : Int) ≤ d + 1 ∧ chainFrom (nextDepth r) rs

instance instDecChainFrom : ∀ (d : Int) (l : List NodeRecord), Decidable (chainFrom d l)
  | _, [] => .isTrue trivial
  | _, r :: rs => @instDecidableAnd _ _ _ (instDecChainFrom (nextDepth r) rs)

/-- Modelled from the spec: the per-step depth condition — a record may be
at most one level deeper than its predecessor, and only when the
predecessor is a directory. -/
def stepOk (a b : NodeRecord) : Prop := (b.depth : Int) ≤ nextDepth a + 1

instance instDecStepOk (a b : NodeRecord) : Decidable (stepOk a b) :=
  inferInstanceAs (Decidable ((b.depth : Int) ≤ nextDepth a + 1))

/-- All consecutive pairs satisfy the depth-step condition. -/
def depthStepsOk : List NodeRecord → Prop
  | [] => True
  | [_] => True
  | a :: b :: l => stepOk a b ∧ depthStepsOk (b :: l)

instance instDecDepthStepsOk : ∀ l : List NodeRecord, Decidable (depthStepsOk l)
  | [] => .isTrue trivial
  | [_] => .isTrue trivial
  | _ :: b :: l => @instDecidableAnd _ _ _ (instDecDepthStepsOk (b :: l))

/-- The first record exists and has depth 0. -/
def firstDepthZero : List NodeRecord → Prop
  | [] => False
  | r :: _ => r.depth = 0

instance instDecFirstDepthZero : ∀ l : List NodeRecord, Decidable (firstDepthZero l)
  | [] => .isFalse (fun h => h)
  | r :: _ => inferInstanceAs (Decidable (r.depth = 0))

/-- A record sequence is a well-formed depth-first pre-order listing:
nonempty, starting at depth 0, with every step increasing depth by at most
one and only below a directory. -/
def wellFormedSeq (l : List NodeRecord) : Prop := firstDepthZero l ∧ depthStepsOk l

instance instDecWellFormedSeq (l : List NodeRecord) : Decidable (wellFormedSeq l) :=
  inferInstanceAs (Decidable (firstDepthZero l ∧ depthStepsOk l))

/-- C10 witness: the size-sort clauses hold at concrete nodes. -/
theorem size_sort_defaults_witness :
    compare_siblings_with_options { sort_by := .size, reverse_sort := true }
        (sizedNode "a" .file 1) (sizedNode "d" .directory 5) = .lt ∧
    compare_siblings_with_options { sort_by := .size }
        (sizedNode "z" .file 9) (sizedNode "a" .file 1) = .lt ∧
    compare_siblings_with_options { sort_by := .size, reverse_sort := true }
        (sizedNode "a" .file 1) (sizedNode "z" .file 9) = .lt ∧
    compare_siblings_with_options { sort_by := .size, files_before_directories := false }
        (sizedNode "a" .file 1) (sizedNode "d" .directory 5) =
      (natCmp 5 1).then (strCmp "a" "d") :=
  ⟨size_sort_defaults.1 _ _ true (by decide) rfl,
   size_sort_defaults.2.1 _ _ (by decide) (by decide),
   size_sort_defaults.2.2.1 _ _ (by decide) (by decide),
   size_sort_defaults.2.2.2.1 _ _⟩

theorem spine_nonempty {s : List Frame} {d : Int} (h : spine s d) : s ≠ [] := by
  cases s with
  | nil => exact absurd h (by simp [spine])
  | cons f rest => simp

theorem spine_head_depth {p : Option NodeRecord} {cs : List TempNode}
    {rest : List Frame} {d : Int} (h : spine ((p, cs) :: rest) d) : frameDepth p = d := by
  cases p with
  | none => exact h.1 ▸ rfl
  | some r => exact h.1

theorem spine_children_irrel {p : Option NodeRecord} {ps ps' : List TempNode}
    {rest : List Frame} {d : Int} (h : spine ((p, ps) :: rest) d) :
    spine ((p, ps') :: rest) d := by
  cases p with
  | none => exact h
  | some r => exact h

theorem flattenForest_append (d : Nat) (xs ys : List TempNode) :
    flattenForest d (xs ++ ys) = flattenForest d xs ++ flattenForest d ys := by
  induction xs with
  | nil => rfl
  | cons t ts ih => simp [flattenForest, ih]

theorem withDepth_self {r : NodeRecord} {d : Nat} (h : r.depth = d) :
    { r with depth := d } = r := by
  cases r
  subst h
  rfl

theorem closeTop_spine {r : NodeRecord} {cs : List TempNode} {p : Option NodeRecord}
    {ps : List TempNode} {rest : List Frame} {d : Int}
    (h : spine ((some r, cs) :: (p, ps) :: rest) d) :
    spine ((p, ps ++ [TempNode.mk r cs]) :: rest) (d - 1) :=
  spine_children_irrel h.2

theorem stackFlatten_cons_some (r : NodeRecord) (cs : List TempNode) (f : Frame)
    (rest : List Frame) :
    stackFlatten ((some r, cs) :: f :: rest) =
      stackFlatten (f :: rest) ++ r :: flattenForest (r.depth + 1) cs := rfl

theorem closeTop_flatten {r : NodeRecord} {cs : List TempNode} {p : Option NodeRecord}
    {ps : List TempNode} {rest : List Frame} {d : Int}
    (h : spine ((some r, cs) :: (p, ps) :: rest) d) :
    stackFlatten ((p, ps ++ [TempNode.mk r cs]) :: rest) =
      stackFlatten ((some r, cs) :: (p, ps) :: rest) := by
  obtain ⟨hr, hrest⟩ := h
  cases rest with
  | nil =>
    cases p with
    | none =>
      obtain ⟨hd1, -⟩ := hrest
      have hr0 : r.depth = 0 := by omega
      show flattenForest 0 (ps ++ [TempNode.mk r cs]) =
        flattenForest 0 ps ++ r :: flattenForest (r.depth + 1) cs
      rw [flattenForest_append, hr0]
      simp [flattenForest, flattenNode, withDepth_self hr0]
    | some q => exact absurd hrest.2 (by simp [spine])
  | cons f2 rest2 =>
    cases p with
    | none => exact absurd hrest.2 (by simp)
    | some q =>
      have hq : (q.depth : Int) = d - 1 := hrest.1
      have hqr : q.depth + 1 = r.depth := by omega
      rw [stackFlatten_cons_some]
      rw [stackFlatten_cons_some]
      rw [stackFlatten_cons_some]
      rw [flattenForest_append]
      rw [flattenForest, flattenNode, flattenForest]
      rw [withDepth_self hqr.symm]
      have hq2 : q.depth + 1 + 1 = r.depth + 1 := by omega
      rw [hq2]
      simp [List.append_assoc]

theorem popUntilFuel_spec (rd : Nat) :
    ∀ (fuel : Nat) (s : List Frame) (d : Int), s.length ≤ fuel + 1 → spine s d →
      spine (popUntilFuel rd fuel s) (min d ((rd : Int) - 1)) ∧
      stackFlatten (popUntilFuel rd fuel s) = stackFlatten s := by
  intro fuel
  induction fuel with
  | zero =>
    intro s d hlen hspine
    cases s with
    | nil => exact absurd hspine (by simp [spine])
    | cons f rest =>
      cases rest with
      | cons f2 rest2 => simp at hlen
      | nil =>
        obtain ⟨p, cs⟩ := f
        cases p with
        | none =>
          obtain ⟨hd1, -⟩ := hspine
          have hmin : min d ((rd : Int) - 1) = d := by omega
          rw [hmin]
          exact ⟨⟨hd1, rfl⟩, rfl⟩
        | some r => exact absurd hspine.2 (by simp [spine])
  | succ fuel ih =>
    intro s d hlen hspine
    cases s with
    | nil => exact absurd hspine (by simp [spine])
    | cons f rest =>
      obtain ⟨p, cs⟩ := f
      cases p with
      | none =>
        obtain ⟨hd1, hrest⟩ := hspine
        subst hrest
        have hmin : min d ((rd : Int) - 1) = d := by omega
        rw [hmin]
        exact ⟨⟨hd1, rfl⟩, rfl⟩
      | some r =>
        cases rest with
        | nil => exact absurd hspine.2 (by simp [spine])
        | cons f2 rest2 =>
          obtain ⟨p2, ps2⟩ := f2
          have hrd : (r.depth : Int) = d := hspine.1
          show spine (popUntilFuel rd (fuel + 1) ((some r, cs) :: (p2, ps2) :: rest2)) _ ∧ _
          by_cases hlt : (rd : Int) - 1 < (r.depth : Int)
          · rw [popUntilFuel, if_pos hlt]
            have hsp2 := closeTop_spine hspine
            have hlen2 : ((p2, ps2 ++ [TempNode.mk r cs]) :: rest2).length ≤ fuel + 1 := by
              simp at hlen ⊢
              omega
            obtain ⟨ihs, ihf⟩ := ih _ _ hlen2 hsp2
            have hmin : min (d - 1) ((rd : Int) - 1) = min d ((rd : Int) - 1) := by omega
            rw [hmin] at ihs
            refine ⟨ihs, ?_⟩
            rw [ihf]
            exact closeTop_flatten hspine
          · rw [popUntilFuel, if_neg hlt]
            have hmin : min d ((rd : Int) - 1) = d := by omega
            rw [hmin]
            exact ⟨hspine, rfl⟩

theorem popUntil_spec {s : List Frame} {d : Int} (rd : Nat) (hspine : spine s d) :
    spine (popUntil rd s) (min d ((rd : Int) - 1)) ∧
    stackFlatten (popUntil rd s) = stackFlatten s :=
  popUntilFuel_spec rd s.length s d (Nat.le_succ _) hspine

/-- A concrete well-formed listing: a root directory with a file and an
empty subdirectory. -/
def demoSeq : List NodeRecord :=
  [{ path := ["root"], kind := .directory, depth := 0 },
   { path := ["root", "file.txt"], kind := .file, depth := 1, size := some 3 },
   { path := ["root", "sub"], kind := .directory, depth := 1 }]

theorem applyRecord_ok {s : List Frame} {d : Int} (r : NodeRecord)
    (hs : spine s d) (hle : (r.depth : Int) ≤ d + 1) :
    ∃ s', applyRecord r s = .ok s' ∧ spine s' (nextDepth r) ∧
      stackFlatten s' = stackFlatten s ++ [r] := by
  obtain ⟨hsp1, hfl1⟩ := popUntil_spec r.depth hs
  have hmin : min d ((r.depth : Int) - 1) = (r.depth : Int) - 1 := by omega
  rw [hmin] at hsp1
  cases hpop : popUntil r.depth s with
  | nil =>
    rw [hpop] at hsp1
    exact absurd hsp1 (by simp [spine])
  | cons f rest =>
    obtain ⟨p, ps⟩ := f
    rw [hpop] at hsp1 hfl1
    have hfd : frameDepth p = (r.depth : Int) - 1 := spine_head_depth hsp1
    have happ : applyRecord r s =
        (if frameDepth p = (r.depth : Int) - 1 then
          if r.kind = .directory then Except.ok ((some r, []) :: (p, ps) :: rest)
          else Except.ok ((p, ps ++ [TempNode.mk r []]) :: rest)
        else Except.error TreeBuildError.depthJump) := by
      unfold applyRecord
      rw [hpop]
    by_cases hdir : r.kind = .directory
    · refine ⟨(some r, []) :: (p, ps) :: rest, ?_, ?_, ?_⟩
      · rw [happ, if_pos hfd, if_pos hdir]
      · show spine ((some r, []) :: (p, ps) :: rest) (nextDepth r)
        unfold nextDepth
        rw [if_pos hdir]
        exact ⟨rfl, hsp1⟩
      · rw [stackFlatten_cons_some, hfl1]
        simp [flattenForest]
    · refine ⟨(p, ps ++ [TempNode.mk r []]) :: rest, ?_, ?_, ?_⟩
      · rw [happ, if_pos hfd, if_neg hdir]
      · show spine ((p, ps ++ [TempNode.mk r []]) :: rest) (nextDepth r)
        unfold nextDepth
        rw [if_neg hdir]
        exact spine_children_irrel hsp1
      · have hsp2 : spine ((some r, []) :: (p, ps) :: rest) (r.depth : Int) := ⟨rfl, hsp1⟩
        rw [closeTop_flatten hsp2, stackFlatten_cons_some, hfl1]
        simp [flattenForest]

theorem applyRecord_err {s : List Frame} {d : Int} (r : NodeRecord)
    (hs : spine s d) (hgt : d + 1 < (r.depth : Int)) :
    applyRecord r s = .error .depthJump := by
  obtain ⟨hsp1, hfl1⟩ := popUntil_spec r.depth hs
  have hmin : min d ((r.depth : Int) - 1) = d := by omega
  rw [hmin] at hsp1
  cases hpop : popUntil r.depth s with
  | nil =>
    rw [hpop] at hsp1
    exact absurd hsp1 (by simp [spine])
  | cons f rest =>
    obtain ⟨p, ps⟩ := f
    rw [hpop] at hsp1
    have hfd : frameDepth p = d := spine_head_depth hsp1
    have hne : ¬ frameDepth p = (r.depth : Int) - 1 := by
      rw [hfd]
      omega
    have happ : applyRecord r s =
        (if frameDepth p = (r.depth : Int) - 1 then
          if r.kind = .directory then Except.ok ((some r, []) :: (p, ps) :: rest)
          else Except.ok ((p, ps ++ [TempNode.mk r []]) :: rest)
        else Except.error TreeBuildError.depthJump) := by
      unfold applyRecord
      rw [hpop]
    rw [happ, if_neg hne]

/-- The open depth left after inserting a record sequence from depth `d`. -/
def chainEnd : Int → List NodeRecord → Int
  | d, [] => d
  | _, r :: rs => chainEnd (nextDepth r) rs

theorem buildLoop_ok : ∀ (recs : List NodeRecord) (s : List Frame) (d : Int),
    spine s d → chainFrom d recs →
    ∃ s', buildLoop recs s = .ok s' ∧ spine s' (chainEnd d recs) ∧
      stackFlatten s' = stackFlatten s ++ recs := by
  intro recs
  induction recs with
  | nil =>
    intro s d hs _
    exact ⟨s, rfl, hs, by simp⟩
  | cons r rs ih =>
    intro s d hs hchain
    obtain ⟨hle, hrest⟩ := hchain
    obtain ⟨s1, happ, hsp1, hfl1⟩ := applyRecord_ok r hs hle
    obtain ⟨s2, hloop, hsp2, hfl2⟩ := ih s1 (nextDepth r) hsp1 hrest
    refine ⟨s2, ?_, hsp2, ?_⟩
    · show (match applyRecord r s with
        | .ok s' => buildLoop rs s'
        | .error e => .error e) = .ok s2
      rw [happ]
      exact hloop
    · rw [hfl2, hfl1]
      simp

theorem buildLoop_err : ∀ (recs : List NodeRecord) (s : List Frame) (d : Int),
    spine s d → ¬ chainFrom d recs →
    ∃ e, buildLoop recs s = .error e := by
  intro recs
  induction recs with
  | nil =>
    intro s d _ hn
    exact absurd trivial hn
  | cons r rs ih =>
    intro s d hs hn
    by_cases hle : (r.depth : Int) ≤ d + 1
    · obtain ⟨s1, happ, hsp1, -⟩ := applyRecord_ok r hs hle
      have hnrest : ¬ chainFrom (nextDepth r) rs := fun hc => hn ⟨hle, hc⟩
      obtain ⟨e, hloop⟩ := ih s1 _ hsp1 hnrest
      refine ⟨e, ?_⟩
      show (match applyRecord r s with
        | .ok s' => buildLoop rs s'
        | .error e => .error e) = .error e
      rw [happ]
      exact hloop
    · have herr := applyRecord_err r hs (by omega)
      refine ⟨.depthJump, ?_⟩
      show (match applyRecord r s with
        | .ok s' => buildLoop rs s'
        | .error e => .error e) = .error .depthJump
      rw [herr]

theorem collapseFuel_flatten : ∀ (fuel : Nat) (s : List Frame) (d : Int),
    s.length ≤ fuel + 1 → spine s d →
    flattenForest 0 (collapseFuel fuel s) = stackFlatten s := by
  intro fuel
  induction fuel with
  | zero =>
    intro s d hlen hs
    cases s with
    | nil => exact absurd hs (by simp [spine])
    | cons f rest =>
      cases rest with
      | cons f2 rest2 => simp at hlen
      | nil =>
        obtain ⟨p, cs⟩ := f
        cases p with
        | none => rfl
        | some r => exact absurd hs.2 (by simp [spine])
  | succ fuel ih =>
    intro s d hlen hs
    cases s with
    | nil => exact absurd hs (by simp [spine])
    | cons f rest =>
      obtain ⟨p, cs⟩ := f
      cases rest with
      | nil =>
        cases p with
        | none => rfl
        | some r => exact absurd hs.2 (by simp [spine])
      | cons f2 rest2 =>
        obtain ⟨p2, ps2⟩ := f2
        cases p with
        | none => exact absurd hs.2 (by simp)
        | some r =>
          show flattenForest 0 (collapseFuel fuel ((p2, ps2 ++ [TempNode.mk r cs]) :: rest2)) = _
          have hsp2 := closeTop_spine hs
          have hlen2 : ((p2, ps2 ++ [TempNode.mk r cs]) :: rest2).length ≤ fuel + 1 := by
            simp at hlen ⊢
            omega
          rw [ih _ _ hlen2 hsp2]
          exact closeTop_flatten hs

theorem collapseAll_flatten {s : List Frame} {d : Int} (hs : spine s d) :
    flattenForest 0 (collapseAll s) = stackFlatten s :=
  collapseFuel_flatten s.length s d (Nat.le_succ _) hs

theorem chainFrom_cons (r : NodeRecord) (rs : List NodeRecord) :
    chainFrom (nextDepth r) rs ↔ depthStepsOk (r :: rs) := by
  induction rs generalizing r with
  | nil => simp [chainFrom, depthStepsOk]
  | cons b l ih =>
    show ((b.depth : Int) ≤ nextDepth r + 1 ∧ chainFrom (nextDepth b) l) ↔
      (stepOk r b ∧ depthStepsOk (b :: l))
    exact and_congr Iff.rfl (ih b)

/-- Shared core of C1 and C5: a well-formed sequence builds successfully and
flattening the result reproduces it exactly. -/
theorem build_forest_of_wf {seq : List NodeRecord} (h : wellFormedSeq seq) :
    ∃ f, build_forest seq = .ok f ∧ flattenForest 0 f = seq := by
  obtain ⟨h0, hsteps⟩ := h
  cases seq with
  | nil => exact absurd h0 (by simp [firstDepthZero])
  | cons r rs =>
    have hr0 : r.depth = 0 := h0
    have hchain : chainFrom (-1) (r :: rs) := by
      refine ⟨by simp [hr0], ?_⟩
      exact (chainFrom_cons r rs).mpr hsteps
    have hspine0 : spine [(Option.none, [])] (-1) := ⟨rfl, rfl⟩
    obtain ⟨s', hloop, hsp, hflat⟩ := buildLoop_ok (r :: rs) _ _ hspine0 hchain
    refine ⟨collapseAll s', ?_, ?_⟩
    · show (if r.depth ≠ 0 then Except.error TreeBuildError.firstDepthNotZero
        else match buildLoop (r :: rs) [(Option.none, [])] with
          | .ok s => Except.ok (collapseAll s)
          | .error e => Except.error e) = Except.ok (collapseAll s')
      rw [if_neg (by simp [hr0]), hloop]
    · rw [collapseAll_flatten hsp, hflat]
      rfl

theorem build_forest_err_of_not_wf {seq : List NodeRecord} (h : ¬ wellFormedSeq seq) :
    ∃ e, build_forest seq = .error e := by
  cases seq with
  | nil => exact ⟨.emptyInput, rfl⟩
  | cons r rs =>
    by_cases hr0 : r.depth = 0
    · have hnsteps : ¬ depthStepsOk (r :: rs) := fun hst => h ⟨hr0, hst⟩
      have hnchain : ¬ chainFrom (-1) (r :: rs) := by
        intro hc
        exact hnsteps ((chainFrom_cons r rs).mp hc.2)
      have hspine0 : spine [(Option.none, [])] (-1) := ⟨rfl, rfl⟩
      obtain ⟨e, hloop⟩ := buildLoop_err (r :: rs) _ _ hspine0 hnchain
      refine ⟨e, ?_⟩
      show (if r.depth ≠ 0 then Except.error TreeBuildError.firstDepthNotZero
        else match buildLoop (r :: rs) [(Option.none, [])] with
          | .ok s => Except.ok (collapseAll s)
          | .error e => Except.error e) = Except.error e
      rw [if_neg (by simp [hr0]), hloop]
    · refine ⟨.firstDepthNotZero, ?_⟩
      show (if r.depth ≠ 0 then Except.error TreeBuildError.firstDepthNotZero
        else match buildLoop (r :: rs) [(Option.none, [])] with
          | .ok s => Except.ok (collapseAll s)
          | .error e => Except.error e) = Except.error TreeBuildError.firstDepthNotZero
      rw [if_pos hr0]

/-- C1: for every input sequence in depth-first pre-order with each
directory's descendants contiguous immediately after it (captured by
`wellFormedSeq`: nonempty, first depth 0, each step at most one level deeper
and only below a directory), flattening the built forest returns exactly the
original sequence, element for element and in order, with no sort or prune
in between. -/
theorem build_flatten_roundtrip (seq : List NodeRecord) (h : wellFormedSeq seq) :
    ∃ f, build_forest seq = .ok f ∧ flattenForest 0 f = seq :=
  build_forest_of_wf h

/-- C1 witness: the round trip holds at a concrete three-record listing. -/
theorem build_flatten_roundtrip_witness :
    wellFormedSeq demoSeq ∧
    ∃ f, build_forest demoSeq = .ok f ∧ flattenForest 0 f = demoSeq :=
  ⟨by decide, build_flatten_roundtrip demoSeq (by decide)⟩

/-- C5: TreeBuilder fails if and only if the input is malformed in exactly
one of the listed ways: empty input, a first record of nonzero depth, or a
record one more than one level deeper than its parent allows; on every
well-formed input both the forest build and the tree build succeed. -/
theorem build_errors_iff (seq : List NodeRecord) :
    ((∃ e, build_forest seq = .error e) ↔
      (seq = [] ∨ ¬ firstDepthZero seq ∨ ¬ depthStepsOk seq)) ∧
    ((∃ t, build_tree seq = .ok t) ↔ wellFormedSeq seq) := by
  have hforest_ok : wellFormedSeq seq → ∃ f, build_forest seq = .ok f := by
    intro h
    obtain ⟨f, hf, -⟩ := build_forest_of_wf h
    exact ⟨f, hf⟩
  have hnotwf_iff : (¬ wellFormedSeq seq) ↔
      (seq = [] ∨ ¬ firstDepthZero seq ∨ ¬ depthStepsOk seq) := by
    unfold wellFormedSeq
    constructor
    · intro h
      by_cases h0 : firstDepthZero seq
      · right; right
        exact fun hst => h ⟨h0, hst⟩
      · right; left
        exact h0
    · intro h hwf
      rcases h with h | h | h
      · subst h
        exact hwf.1
      · exact h hwf.1
      · exact h hwf.2
  constructor
  · constructor
    · intro ⟨e, he⟩
      rw [← hnotwf_iff]
      intro hwf
      obtain ⟨f, hf⟩ := hforest_ok hwf
      rw [hf] at he
      exact Except.noConfusion he
    · intro h
      exact build_forest_err_of_not_wf (hnotwf_iff.mpr h)
  · constructor
    · intro ⟨t, ht⟩
      by_contra hwf
      obtain ⟨e, he⟩ := build_forest_err_of_not_wf hwf
      unfold build_tree at ht
      rw [he] at ht
      exact Except.noConfusion ht
    · intro hwf
      obtain ⟨f, hf⟩ := hforest_ok hwf
      unfold build_tree
      rw [hf]
      cases f with
      | nil => exact ⟨_, rfl⟩
      | cons t ts =>
        cases ts with
        | nil => exact ⟨t, rfl⟩
        | cons t2 ts2 => exact ⟨_, rfl⟩

/-! ## Pruner

Modelled from the spec (section 4.3): post-order traversal that first prunes
a directory's children recursively, then removes the directory itself from
its parent's child list if its remaining child list is empty.  Files and
symlinks are never removed, and the root is never pruned. -/

mutual

/-- Prune one node: prune the children, then drop the node itself if it is a
directory left with no children. -/
def pruneNode? : TempNode → Option TempNode
  | .mk r cs =>
    let cs' := pruneForest cs
    if r.kind = .directory ∧ cs' = [] then Option.none else some (.mk r cs')

/-- Prune every node of a sibling list, dropping emptied directories. -/
def pruneForest : List TempNode → List TempNode
  | [] => []
  | t :: ts =>
    match pruneNode? t with
    | Option.none => pruneForest ts
    | some t' => t' :: pruneForest ts

end

/-- Modelled from the spec: prune a whole tree; the root is kept even when
it ends up childless. -/
def prune_tree : TempNode → TempNode
  | .mk r cs => .mk r (pruneForest cs)

mutual

/-- Every node of a subtree, the subtree's own root included. -/
def subtreeNodes : TempNode → List TempNode
  | .mk r cs => .mk r cs :: forestNodes cs

/-- Every node of a forest. -/
def forestNodes : List TempNode → List TempNode
  | [] => []
  | t :: ts => subtreeNodes t ++ forestNodes ts

end

mutual

/-- The records of the non-directory nodes of a subtree, in depth-first
pre-order. -/
def nodeFiles : TempNode → List NodeRecord
  | .mk r cs => (if r.kind = .directory then [] else [r]) ++ forestFiles cs

/-- The records of the non-directory nodes of a forest. -/
def forestFiles : List TempNode → List NodeRecord
  | [] => []
  | t :: ts => nodeFiles t ++ forestFiles ts

end

/-- A concrete tree: a root with an empty directory chain and a nonempty
subdirectory. -/
def demoTree : TempNode :=
  .mk { path := ["root"], kind := .directory, depth := 0 }
    [.mk { path := ["root", "empty"], kind := .directory, depth := 1 }
      [.mk { path := ["root", "empty", "inner"], kind := .directory, depth := 2 } []],
     .mk { path := ["root", "sub"], kind := .directory, depth := 1 }
      [.mk { path := ["root", "sub", "f"], kind := .file, depth := 2 } []]]

/-- What pruning `demoTree` should leave. -/
def demoTreePruned : TempNode :=
  .mk { path := ["root"], kind := .directory, depth := 0 }
    [.mk { path := ["root", "sub"], kind := .directory, depth := 1 }
      [.mk { path := ["root", "sub", "f"], kind := .file, depth := 2 } []]]

/-- The property C8 asserts of every surviving non-root node. -/
def noEmptyDir (u : TempNode) : Prop := u.info.kind = .directory → u.children ≠ []

/-- The per-node pruning soundness statement used in the mutual induction. -/
def pruneNodeGood (t : TempNode) : Prop :=
  ∀ t', pruneNode? t = some t' → ∀ u ∈ subtreeNodes t', noEmptyDir u

theorem pruneForest_good (ts : List TempNode) (hts : ∀ t ∈ ts, pruneNodeGood t) :
    ∀ u ∈ forestNodes (pruneForest ts), noEmptyDir u := by
  induction ts with
  | nil => intro u hu; exact absurd hu (by simp [pruneForest, forestNodes])
  | cons t ts ih =>
    intro u hu
    have hts' : ∀ x ∈ ts, pruneNodeGood x := fun x hx => hts x (List.mem_cons_of_mem t hx)
    show noEmptyDir u
    by_cases hdrop : pruneNode? t = Option.none
    · have : pruneForest (t :: ts) = pruneForest ts := by
        show (match pruneNode? t with
          | Option.none => pruneForest ts
          | some t' => t' :: pruneForest ts) = pruneForest ts
        rw [hdrop]
      rw [this] at hu
      exact ih hts' u hu
    · obtain ⟨t', ht'⟩ := Option.ne_none_iff_exists'.mp hdrop
      have : pruneForest (t :: ts) = t' :: pruneForest ts := by
        show (match pruneNode? t with
          | Option.none => pruneForest ts
          | some t' => t' :: pruneForest ts) = t' :: pruneForest ts
        rw [ht']
      rw [this] at hu
      have hu2 : u ∈ subtreeNodes t' ++ forestNodes (pruneForest ts) := hu
      rcases List.mem_append.mp hu2 with hl | hr
      · exact hts t (List.mem_cons_self t ts) t' ht' u hl
      · exact ih hts' u hr

theorem pruneNode_good : ∀ t, pruneNodeGood t := by
  intro t
  induction t using TempNode.ind with
  | h r cs ih =>
    intro t' ht' u hu
    have hforest := pruneForest_good cs ih
    by_cases hcond : r.kind = .directory ∧ pruneForest cs = []
    · have : pruneNode? (.mk r cs) = Option.none := by
        show (if r.kind = .directory ∧ pruneForest cs = [] then Option.none
          else some (TempNode.mk r (pruneForest cs))) = Option.none
        rw [if_pos hcond]
      rw [this] at ht'
      exact absurd ht' (by simp)
    · have : pruneNode? (.mk r cs) = some (.mk r (pruneForest cs)) := by
        show (if r.kind = .directory ∧ pruneForest cs = [] then Option.none
          else some (TempNode.mk r (pruneForest cs))) = some (.mk r (pruneForest cs))
        rw [if_neg hcond]
      rw [this] at ht'
      cases ht'
      have hu2 : u ∈ TempNode.mk r (pruneForest cs) :: forestNodes (pruneForest cs) := hu
      rcases List.mem_cons.mp hu2 with heq | hmem
      · subst heq
        intro hk
        intro hempty
        exact hcond ⟨hk, hempty⟩
      · exact hforest u hmem

theorem pruneForest_files (ts : List TempNode)
    (hts : ∀ t ∈ ts, (∀ t', pruneNode? t = some t' → nodeFiles t' = nodeFiles t) ∧
      (pruneNode? t = Option.none → nodeFiles t = [])) :
    forestFiles (pruneForest ts) = forestFiles ts := by
  induction ts with
  | nil => rfl
  | cons t ts ih =>
    have hts' := fun x hx => hts x (List.mem_cons_of_mem t hx)
    have hthis := hts t (List.mem_cons_self t ts)
    by_cases hdrop : pruneNode? t = Option.none
    · have h1 : pruneForest (t :: ts) = pruneForest ts := by
        show (match pruneNode? t with
          | Option.none => pruneForest ts
          | some t' => t' :: pruneForest ts) = pruneForest ts
        rw [hdrop]
      rw [h1, ih hts']
      show forestFiles ts = nodeFiles t ++ forestFiles ts
      rw [hthis.2 hdrop]
      rfl
    · obtain ⟨t', ht'⟩ := Option.ne_none_iff_exists'.mp hdrop
      have h1 : pruneForest (t :: ts) = t' :: pruneForest ts := by
        show (match pruneNode? t with
          | Option.none => pruneForest ts
          | some t' => t' :: pruneForest ts) = t' :: pruneForest ts
        rw [ht']
      rw [h1]
      show nodeFiles t' ++ forestFiles (pruneForest ts) = nodeFiles t ++ forestFiles ts
      rw [hthis.1 t' ht', ih hts']

theorem pruneNode_files : ∀ t : TempNode,
    (∀ t', pruneNode? t = some t' → nodeFiles t' = nodeFiles t) ∧
    (pruneNode? t = Option.none → nodeFiles t = []) := by
  intro t
  induction t using TempNode.ind with
  | h r cs ih =>
    have hforest := pruneForest_files cs ih
    constructor
    · intro t' ht'
      by_cases hcond : r.kind = .directory ∧ pruneForest cs = []
      · have : pruneNode? (.mk r cs) = Option.none := by
          show (if r.kind = .directory ∧ pruneForest cs = [] then Option.none
            else some (TempNode.mk r (pruneForest cs))) = Option.none
          rw [if_pos hcond]
        rw [this] at ht'
        exact absurd ht' (by simp)
      · have : pruneNode? (.mk r cs) = some (.mk r (pruneForest cs)) := by
          show (if r.kind = .directory ∧ pruneForest cs = [] then Option.none
            else some (TempNode.mk r (pruneForest cs))) = some (.mk r (pruneForest cs))
          rw [if_neg hcond]
        rw [this] at ht'
        cases ht'
        show (if r.kind = .directory then [] else [r]) ++ forestFiles (pruneForest cs) =
          (if r.kind = .directory then [] else [r]) ++ forestFiles cs
        rw [hforest]
    · intro hdrop
      have hcond : r.kind = .directory ∧ pruneForest cs = [] := by
        by_contra hcond
        have : pruneNode? (.mk r cs) = some (.mk r (pruneForest cs)) := by
          show (if r.kind = .directory ∧ pruneForest cs = [] then Option.none
            else some (TempNode.mk r (pruneForest cs))) = some (.mk r (pruneForest cs))
          rw [if_neg hcond]
        rw [this] at hdrop
        exact Option.noConfusion hdrop
      show (if r.kind = .directory then [] else [r]) ++ forestFiles cs = []
      rw [if_pos hcond.1]
      have : forestFiles cs = forestFiles (pruneForest cs) := hforest.symm
      rw [List.nil_append, this, hcond.2]
      rfl

/-- C8: after pruning, no directory node in the tree has an empty child
list except possibly the root: the root node survives unchanged, every
non-root directory surviving the prune keeps a nonempty child list, and the
non-directory records (files and symlinks) are preserved exactly, in order.
-/
theorem prune_no_empty_dirs (t : TempNode) :
    (prune_tree t).info = t.info ∧
    (∀ u ∈ forestNodes (prune_tree t).children, u.info.kind = .directory → u.children ≠ []) ∧
    forestFiles (prune_tree t).children = forestFiles t.children := by
  cases t with
  | mk r cs =>
    refine ⟨rfl, ?_, ?_⟩
    · intro u hu
      exact pruneForest_good cs (fun x _ => pruneNode_good x) u hu
    · exact pruneForest_files cs (fun x _ => pruneNode_files x)

/-- C8 witness: pruning a concrete tree with an emptied nested directory
keeps the file, drops the empty directory chain, keeps the root, and the
surviving subdirectory is nonempty. -/
theorem prune_no_empty_dirs_witness :
    prune_tree demoTree = demoTreePruned ∧
    (TempNode.mk { path := ["root", "sub"], kind := .directory, depth := 1 }
        [TempNode.mk { path := ["root", "sub", "f"], kind := .file, depth := 2 } []]) ∈
      forestNodes (prune_tree demoTree).children ∧
    ((TempNode.mk { path := ["root", "sub"], kind := .directory, depth := 1 }
        [TempNode.mk { path := ["root", "sub", "f"], kind := .file, depth := 2 } []]).info.kind =
          .directory →
      (TempNode.mk { path := ["root", "sub"], kind := .directory, depth := 1 }
        [TempNode.mk { path := ["root", "sub", "f"], kind := .file, depth := 2 } []]).children ≠ []) ∧
    forestFiles (prune_tree demoTree).children = forestFiles demoTree.children :=
  ⟨by decide, by decide,
   (prune_no_empty_dirs demoTree).2.1 _ (by decide),
   (prune_no_empty_dirs demoTree).2.2⟩

/-! ## SnapshotDiffer

Modelled from the spec (section 4.5) and the diff documentation: compare a
before collection B and an after collection A, classify common paths,
detect moves among the removed/added candidates by a similarity score, and
emit a change set.  Similarity scores are rationals represented as
unreduced fractions `num / (den + 1)` so that all score arithmetic is plain
integer arithmetic. -/

/-- A rational `num / (den + 1)` with a positive denominator by
construction, used for similarity scores. -/
structure Frac where
  num : Int
  den : Nat
deriving DecidableEq, Repr

def Frac.toRat (x : Frac) : ℚ := (x.num : ℚ) / ((x.den : ℚ) + 1)

def Frac.add (x y : Frac) : Frac :=
  ⟨x.num * (y.den + 1) + y.num * (x.den + 1), x.den * y.den + x.den + y.den⟩

def Frac.nsmul (k : Nat) (x : Frac) : Frac := ⟨k * x.num, x.den⟩

def Frac.divN (x : Frac) (k : Nat) : Frac := ⟨x.num, (x.den + 1) * k - 1⟩

/-- The score `x` is at or above the rational threshold `q`. -/
def Frac.geRat (x : Frac) (q : ℚ) : Prop :=
  q.num * ((x.den : Int) + 1) ≤ x.num * (q.den : Int)

instance (x : Frac) (q : ℚ) : Decidable (x.geRat q) :=
  inferInstanceAs (Decidable (q.num * ((x.den : Int) + 1) ≤ x.num * (q.den : Int)))

/-- Compare two scores by cross multiplication (denominators positive). -/
def fracCmp (x y : Frac) : Ordering :=
  intCmp (x.num * ((y.den : Int) + 1)) (y.num * ((x.den : Int) + 1))

theorem fracCmp_eq (a b : Frac) : fracCmp a b = cmpOf Frac.toRat a b := by
  have hiff : ∀ u v : Frac,
      u.num * ((v.den : Int) + 1) < v.num * ((u.den : Int) + 1) ↔
        Frac.toRat u < Frac.toRat v := by
    intro u v
    unfold Frac.toRat
    rw [div_lt_div_iff₀ (by positivity) (by positivity)]
    constructor
    · intro h
      exact_mod_cast h
    · intro h
      exact_mod_cast h
  show intCmp (a.num * ((b.den : Int) + 1)) (b.num * ((a.den : Int) + 1)) = _
  unfold intCmp cmpOf
  simp only [id_eq]
  by_cases h1 : Frac.toRat a < Frac.toRat b
  · rw [if_pos ((hiff a b).mpr h1), if_pos h1]
  · rw [if_neg (fun hh => h1 ((hiff a b).mp hh)), if_neg h1]
    by_cases h2 : Frac.toRat b < Frac.toRat a
    · rw [if_pos ((hiff b a).mpr h2), if_pos h2]
    · rw [if_neg (fun hh => h2 ((hiff b a).mp hh)), if_neg h2]

theorem lawful_fracCmp : LawfulCmp fracCmp :=
  lawful_ext fracCmp_eq (lawful_cmpOf Frac.toRat)

def levStep (ca : Char) : List Char → List Nat → Nat → List Nat
  | [], _, _ => []
  | _ :: _, [], _ => []
  | cb :: bs, pj1 :: prest, left =>
    let v := min (min (prest.headD 0 + 1) (left + 1)) (pj1 + (if ca = cb then 0 else 1))
    v :: levStep ca bs prest v

def levRows : List Char → List Char → List Nat → Nat → List Nat
  | [], _, prow, _ => prow
  | ca :: as, b, prow, i => levRows as b ((i + 1) :: levStep ca b prow (i + 1)) (i + 1)

/-- Modelled from the spec: Levenshtein edit distance (row-wise dynamic
programming), backing the normalized name similarity. -/
def levenshtein (a b : List Char) : Nat :=
  (levRows a b (List.range (b.length + 1)) 0).getLastD 0

/-- Modelled from the spec: normalized edit-distance similarity of two
names (1 when both are empty). -/
def nameSim (x y : String) : Frac :=
  let m := max x.length y.length
  if m = 0 then ⟨1, 0⟩ else ⟨(m : Int) - (levenshtein x.data y.data : Int), m - 1⟩

/-- Modelled from the spec: size closeness, min over max (1 when both sizes
are absent or zero). -/
def sizeSim (x y : Option Nat) : Frac :=
  let sx := x.getD 0
  let sy := y.getD 0
  let m := max sx sy
  if m = 0 then ⟨1, 0⟩ else ⟨(min sx sy : Int), m - 1⟩

/-- Modelled from the spec: modified-time closeness: 1 on equal stamps,
otherwise the gap relative to the larger magnitude, clamped at 0. -/
def timeSim (x y : Option Int) : Frac :=
  let tx := x.getD 0
  let ty := y.getD 0
  if tx = ty then ⟨1, 0⟩
  else
    let m := max tx.natAbs ty.natAbs
    if m = 0 then ⟨0, 0⟩
    else ⟨max 0 ((m : Int) - ((tx - ty).natAbs : Int)), m - 1⟩

/-- Modelled from the spec: the exact-match bonus/penalty on kind. -/
def kindSim (x y : NodeKind) : Frac := if x = y then ⟨1, 0⟩ else ⟨0, 0⟩

/-- Modelled from the spec: similarity in [0, 1] as a weighted combination:
name similarity (weight 2), size closeness, time closeness and the kind
bonus (weight 1 each), over the total weight 5. -/
def similarity_score (b a : NodeRecord) : Frac :=
  (((((nameSim (nameOf b) (nameOf a)).nsmul 2).add (sizeSim b.size a.size)).add
    (timeSim b.modified_time a.modified_time)).add (kindSim b.kind a.kind)).divN 5

/-- Modelled from the spec: the classification of one path. -/
inductive ChangeKind where
  | added
  | removed
  | modified
  | moved
  | typeChanged
  | unchanged
deriving DecidableEq, Repr

/-- Modelled from the spec: one element of the change set.  Exactly one of
`old`/`new` is absent for Added/Removed; `similarity_score` is present only
for Moved. -/
structure ChangeRecord where
  old : Option NodeRecord
  new : Option NodeRecord
  change_kind : ChangeKind
  similarity_score : Option Frac
deriving DecidableEq, Repr

/-- Modelled from the spec: the differ's error cases. -/
inductive DiffError where
  | configError
  | duplicatePath (p : List String)
deriving DecidableEq, Repr

instance instDecEqExcept {ε : Type u} {α : Type v} [DecidableEq ε] [DecidableEq α] :
    DecidableEq (Except ε α)
  | .error e, .error e' =>
    if h : e = e' then .isTrue (h ▸ rfl) else .isFalse (fun hh => h (by injection hh))
  | .error _, .ok _ => .isFalse (fun hh => Except.noConfusion hh)
  | .ok _, .error _ => .isFalse (fun hh => Except.noConfusion hh)
  | .ok a, .ok a' =>
    if h : a = a' then .isTrue (h ▸ rfl) else .isFalse (fun hh => h (by injection hh))

/-- Modelled from the docs: the diff options with their documented defaults:
move_threshold 0.8, size/time thresholds 0, moves enabled, unchanged
records hidden. -/
structure DiffOptions where
  move_threshold : ℚ := ⟨4, 5, by norm_num, by norm_num⟩
  size_threshold : Int := 0
  time_threshold : Int := 0
  ignore_moves : Bool := false
  show_unchanged : Bool := false
deriving DecidableEq, Repr

/-- Modelled from the spec: reject a move threshold outside [0, 1] and
negative size/time thresholds, before any comparison work. -/
def validate_options (o : DiffOptions) : Except DiffError Unit :=
  if o.move_threshold < 0 ∨ 1 < o.move_threshold then .error .configError
  else if o.size_threshold < 0 then .error .configError
  else if o.time_threshold < 0 then .error .configError
  else .ok ()

/-- The first path that occurs twice in the collection, if any. -/
def firstDuplicate : List NodeRecord → Option (List String)
  | [] => Option.none
  | r :: rs =>
    if rs.any (fun x => decide (x.path = r.path)) then some r.path else firstDuplicate rs

/-- Modelled from the spec: fingerprints count as differing only when both
records carry one. -/
def fingerprintsDiffer (b a : NodeRecord) : Prop :=
  b.content_fingerprint.isSome = true ∧ a.content_fingerprint.isSome = true ∧
    b.content_fingerprint ≠ a.content_fingerprint

instance (b a : NodeRecord) : Decidable (fingerprintsDiffer b a) :=
  inferInstanceAs (Decidable (_ ∧ _ ∧ _))

/-- Modelled from the spec: a common path is Modified when the size gap or
the time gap exceeds its threshold, or the fingerprints differ. -/
def modifiedCond (o : DiffOptions) (b a : NodeRecord) : Prop :=
  (o.size_threshold < (((b.size.getD 0 : Int) - (a.size.getD 0 : Int)).natAbs : Int)) ∨
  (o.time_threshold < ((b.modified_time.getD 0 - a.modified_time.getD 0).natAbs : Int)) ∨
  fingerprintsDiffer b a

instance (o : DiffOptions) (b a : NodeRecord) : Decidable (modifiedCond o b a) :=
  inferInstanceAs (Decidable (_ ∨ _ ∨ _))

/-- Modelled from the spec: classify a path present in both snapshots. -/
def classify_common (o : DiffOptions) (b a : NodeRecord) : ChangeKind :=
  if b.kind ≠ a.kind then .typeChanged
  else if modifiedCond o b a then .modified
  else .unchanged

def findByPath (l : List NodeRecord) (p : List String) : Option NodeRecord :=
  l.find? (fun x => decide (x.path = p))

/-- Records of B whose path does not occur in A. -/
def removed_candidates (b a : List NodeRecord) : List NodeRecord :=
  b.filter (fun rb => (findByPath a rb.path).isNone)

/-- Records of A whose path does not occur in B. -/
def added_candidates (b a : List NodeRecord) : List NodeRecord :=
  a.filter (fun ra => (findByPath b ra.path).isNone)

/-- A move candidate: a removed record, an added record, and their score. -/
structure MovePair where
  before : NodeRecord
  after : NodeRecord
  score : Frac
deriving DecidableEq, Repr

/-- Modelled from the spec: every (removed, added) pair whose similarity
reaches the move threshold. -/
def qualifyingPairs (o : DiffOptions) (rem add : List NodeRecord) : List MovePair :=
  rem.flatMap (fun rb => add.filterMap (fun ra =>
    if (similarity_score rb ra).geRat o.move_threshold then
      some ⟨rb, ra, similarity_score rb ra⟩
    else Option.none))

def pathCmp (p q : List String) : Ordering := listCmp strCmp p q

/-- Modelled from the spec: descending score, ties broken by the
before-path and then the after-path, for determinism. -/
def pairCmp (p q : MovePair) : Ordering :=
  (fracCmp q.score p.score).then
    ((pathCmp p.before.path q.before.path).then (pathCmp p.after.path q.after.path))

def pairLe (p q : MovePair) : Prop := pairCmp p q ≠ .gt

instance : DecidableRel pairLe := fun p q => by
  unfold pairLe
  infer_instance

def sortedPairs (o : DiffOptions) (rem add : List NodeRecord) : List MovePair :=
  List.insertionSort pairLe (qualifyingPairs o rem add)

/-- Modelled from the spec: greedy resolution — walk the sorted pairs, skip
any pair with an already-claimed side, and claim both sides of each
emitted pair. -/
def resolveGreedy : List MovePair → List (List String) → List (List String) → List MovePair
  | [], _, _ => []
  | p :: ps, cb, ca =>
    if p.before.path ∈ cb ∨ p.after.path ∈ ca then resolveGreedy ps cb ca
    else p :: resolveGreedy ps (p.before.path :: cb) (p.after.path :: ca)

def detectMoves (o : DiffOptions) (rem add : List NodeRecord) : List MovePair :=
  resolveGreedy (sortedPairs o rem add) [] []

def movedRecord (m : MovePair) : ChangeRecord :=
  ⟨some m.before, some m.after, .moved, some m.score⟩

def removedRecord (r : NodeRecord) : ChangeRecord :=
  ⟨some r, Option.none, .removed, Option.none⟩

def addedRecord (r : NodeRecord) : ChangeRecord :=
  ⟨Option.none, some r, .added, Option.none⟩

/-- Modelled from the spec: the change records for the common paths,
omitting Unchanged unless requested. -/
def commonChanges (o : DiffOptions) (b a : List NodeRecord) : List ChangeRecord :=
  b.filterMap (fun rb =>
    match findByPath a rb.path with
    | some ra =>
      if classify_common o rb ra = ChangeKind.unchanged ∧ o.show_unchanged = false then
        Option.none
      else some ⟨some rb, some ra, classify_common o rb ra, Option.none⟩
    | Option.none => Option.none)

/-- The resolved moves of one diff run (none when moves are disabled). -/
def diffMoves (o : DiffOptions) (b a : List NodeRecord) : List MovePair :=
  if o.ignore_moves then [] else detectMoves o (removed_candidates b a) (added_candidates b a)

/-- Modelled from the spec: the full diff pipeline over validated inputs:
classify the common paths (omitting Unchanged unless requested), detect
moves among the candidates unless disabled, and emit the Moved records
plus the unclaimed Removed and Added records. -/
def snapshot_diff (o : DiffOptions) (b a : List NodeRecord) : List ChangeRecord :=
  commonChanges o b a ++ (diffMoves o b a).map movedRecord ++
    ((removed_candidates b a).filter
      (fun r => !((diffMoves o b a).any (fun m => decide (m.before.path = r.path))))).map
        removedRecord ++
    ((added_candidates b a).filter
      (fun r => !((diffMoves o b a).any (fun m => decide (m.after.path = r.path))))).map
        addedRecord

/-- Modelled from the spec: validate the configuration first, then reject
duplicate paths, then diff; the diff itself cannot fail. -/
def run_diff (o : DiffOptions) (b a : List NodeRecord) : Except DiffError (List ChangeRecord) :=
  match validate_options o with
  | .error e => .error e
  | .ok _ =>
    match firstDuplicate b with
    | some p => .error (.duplicatePath p)
    | Option.none =>
      match firstDuplicate a with
      | some p => .error (.duplicatePath p)
      | Option.none => .ok (snapshot_diff o b a)

/-- The "before" record of the spec's move-detection example. -/
def oldRec : NodeRecord :=
  { path := ["a", "old.txt"], kind := .file, depth := 1, size := some 100,
    modified_time := some 1000 }

/-- The "after" record of the spec's move-detection example. -/
def newRec : NodeRecord :=
  { path := ["a", "new.txt"], kind := .file, depth := 1, size := some 100,
    modified_time := some 1000 }

/-- The 0.5 move threshold of the spec's move-detection example. -/
def halfThreshold : ℚ := ⟨1, 2, by norm_num, by norm_num⟩

/-- The directory record of the spec's directory-emptied example. -/
def dirRec : NodeRecord := { path := ["d"], kind := .directory, depth := 0 }

/-- The file record of the spec's directory-emptied example. -/
def f1Rec : NodeRecord := { path := ["d", "f1"], kind := .file, depth := 1, size := some 10 }

theorem lawful_pairCmp : LawfulCmp pairCmp := by
  have h1 : LawfulCmp (fun p q : MovePair => fracCmp q.score p.score) :=
    lawful_flip (lawful_comap MovePair.score lawful_fracCmp)
  have h2 : LawfulCmp (fun p q : MovePair => pathCmp p.before.path q.before.path) :=
    lawful_comap (fun p : MovePair => p.before.path) (lawful_listCmp lawful_strCmp)
  have h3 : LawfulCmp (fun p q : MovePair => pathCmp p.after.path q.after.path) :=
    lawful_comap (fun p : MovePair => p.after.path) (lawful_listCmp lawful_strCmp)
  exact lawful_ext (fun a b => rfl) (lawful_then h1 (lawful_then h2 h3))

theorem sortedPairs_sorted (o : DiffOptions) (rem add : List NodeRecord) :
    List.Sorted pairLe (sortedPairs o rem add) := by
  haveI : IsTotal MovePair pairLe := ⟨fun a b => lawful_pairCmp.le_total a b⟩
  haveI : IsTrans MovePair pairLe :=
    ⟨fun a b d hab hbd => lawful_pairCmp.le_trans hab hbd⟩
  exact List.sorted_insertionSort _ _

theorem sortedPairs_perm (o : DiffOptions) (rem add : List NodeRecord) :
    List.Perm (sortedPairs o rem add) (qualifyingPairs o rem add) :=
  List.perm_insertionSort _ _

theorem resolveGreedy_sublist : ∀ (l : List MovePair) (cb ca : List (List String)),
    List.Sublist (resolveGreedy l cb ca) l := by
  intro l
  induction l with
  | nil =>
    intro cb ca
    exact List.Sublist.refl []
  | cons p ps ih =>
    intro cb ca
    by_cases hc : p.before.path ∈ cb ∨ p.after.path ∈ ca
    · have heq : resolveGreedy (p :: ps) cb ca = resolveGreedy ps cb ca := by
        show (if _ then _ else _) = _
        rw [if_pos hc]
      rw [heq]
      exact (ih cb ca).cons p
    · have heq : resolveGreedy (p :: ps) cb ca =
          p :: resolveGreedy ps (p.before.path :: cb) (p.after.path :: ca) := by
        show (if _ then _ else _) = _
        rw [if_neg hc]
      rw [heq]
      exact (ih _ _).cons₂ p

theorem mem_qualifyingPairs {o : DiffOptions} {rem add : List NodeRecord} {m : MovePair}
    (h : m ∈ qualifyingPairs o rem add) :
    m.before ∈ rem ∧ m.after ∈ add ∧ m.score = similarity_score m.before m.after ∧
      m.score.geRat o.move_threshold := by
  unfold qualifyingPairs at h
  rw [List.mem_flatMap] at h
  obtain ⟨rb, hrb, hmem⟩ := h
  rw [List.mem_filterMap] at hmem
  obtain ⟨ra, hra, hif⟩ := hmem
  by_cases hge : (similarity_score rb ra).geRat o.move_threshold
  · rw [if_pos hge] at hif
    cases hif
    exact ⟨hrb, hra, rfl, hge⟩
  · rw [if_neg hge] at hif
    exact Option.noConfusion hif

theorem resolveGreedy_claims : ∀ (l : List MovePair) (cb ca : List (List String)),
    (∀ m ∈ resolveGreedy l cb ca, m.before.path ∉ cb ∧ m.after.path ∉ ca) ∧
    ((resolveGreedy l cb ca).map (fun m => m.before.path)).Nodup ∧
    ((resolveGreedy l cb ca).map (fun m => m.after.path)).Nodup := by
  intro l
  induction l with
  | nil =>
    intro cb ca
    exact ⟨fun m hm => absurd hm (by simp [resolveGreedy]), by simp [resolveGreedy],
      by simp [resolveGreedy]⟩
  | cons p ps ih =>
    intro cb ca
    by_cases hc : p.before.path ∈ cb ∨ p.after.path ∈ ca
    · have heq : resolveGreedy (p :: ps) cb ca = resolveGreedy ps cb ca := by
        show (if _ then _ else _) = _
        rw [if_pos hc]
      rw [heq]
      exact ih cb ca
    · have heq : resolveGreedy (p :: ps) cb ca =
          p :: resolveGreedy ps (p.before.path :: cb) (p.after.path :: ca) := by
        show (if _ then _ else _) = _
        rw [if_neg hc]
      rw [heq]
      push_neg at hc
      obtain ⟨ihm, ihb, iha⟩ := ih (p.before.path :: cb) (p.after.path :: ca)
      refine ⟨?_, ?_, ?_⟩
      · intro m hm
        rcases List.mem_cons.mp hm with h1 | h2
        · subst h1
          exact hc
        · have h3 := ihm m h2
          exact ⟨fun hmem => h3.1 (List.mem_cons_of_mem _ hmem),
            fun hmem => h3.2 (List.mem_cons_of_mem _ hmem)⟩
      · rw [List.map_cons, List.nodup_cons]
        refine ⟨?_, ihb⟩
        intro hmem
        obtain ⟨m, hm, hpm⟩ := List.mem_map.mp hmem
        exact (ihm m hm).1 (by rw [hpm]; exact List.mem_cons_self _ _)
      · rw [List.map_cons, List.nodup_cons]
        refine ⟨?_, iha⟩
        intro hmem
        obtain ⟨m, hm, hpm⟩ := List.mem_map.mp hmem
        exact (ihm m hm).2 (by rw [hpm]; exact List.mem_cons_self _ _)

theorem mem_commonChanges_kind {o : DiffOptions} {b a : List NodeRecord} {c : ChangeRecord}
    (h : c ∈ commonChanges o b a) :
    c.change_kind ≠ .removed ∧ c.change_kind ≠ .added ∧ c.change_kind ≠ .moved := by
  unfold commonChanges at h
  rw [List.mem_filterMap] at h
  obtain ⟨rb, hrb, hf⟩ := h
  cases hfind : findByPath a rb.path with
  | none =>
    rw [hfind] at hf
    exact Option.noConfusion hf
  | some ra =>
    rw [hfind] at hf
    have hf' : (if classify_common o rb ra = ChangeKind.unchanged ∧ o.show_unchanged = false
        then Option.none
        else some (⟨some rb, some ra, classify_common o rb ra, Option.none⟩ : ChangeRecord)) =
          some c := hf
    by_cases hcond : classify_common o rb ra = ChangeKind.unchanged ∧ o.show_unchanged = false
    · rw [if_pos hcond] at hf'
      exact Option.noConfusion hf'
    · rw [if_neg hcond] at hf'
      cases hf'
      refine ⟨?_, ?_, ?_⟩ <;> show classify_common o rb ra ≠ _ <;>
        (unfold classify_common; split_ifs <;> simp)

theorem removedRecord_mem_snapshot {o : DiffOptions} {b a : List NodeRecord}
    {r : NodeRecord} :
    removedRecord r ∈ snapshot_diff o b a ↔
      r ∈ (removed_candidates b a).filter
        (fun x => !((diffMoves o b a).any (fun m => decide (m.before.path = x.path)))) := by
  unfold snapshot_diff
  constructor
  · intro h
    rcases List.mem_append.mp h with h' | hD
    · rcases List.mem_append.mp h' with h'' | hC
      · rcases List.mem_append.mp h'' with hA | hB
        · exact absurd rfl (mem_commonChanges_kind hA).1
        · obtain ⟨m, hm, heq⟩ := List.mem_map.mp hB
          exact ChangeKind.noConfusion (congrArg ChangeRecord.change_kind heq)
      · obtain ⟨x, hx, heq⟩ := List.mem_map.mp hC
        have hxr : x = r := Option.some.inj (congrArg ChangeRecord.old heq)
        subst hxr
        exact hx
    · obtain ⟨x, hx, heq⟩ := List.mem_map.mp hD
      exact ChangeKind.noConfusion (congrArg ChangeRecord.change_kind heq)
  · intro h
    exact List.mem_append.mpr (Or.inl (List.mem_append.mpr
      (Or.inr (List.mem_map.mpr ⟨r, h, rfl⟩))))

theorem addedRecord_mem_snapshot {o : DiffOptions} {b a : List NodeRecord}
    {r : NodeRecord} :
    addedRecord r ∈ snapshot_diff o b a ↔
      r ∈ (added_candidates b a).filter
        (fun x => !((diffMoves o b a).any (fun m => decide (m.after.path = x.path)))) := by
  unfold snapshot_diff
  constructor
  · intro h
    rcases List.mem_append.mp h with h' | hD
    · rcases List.mem_append.mp h' with h'' | hC
      · rcases List.mem_append.mp h'' with hA | hB
        · exact absurd rfl (mem_commonChanges_kind hA).2.1
        · obtain ⟨m, hm, heq⟩ := List.mem_map.mp hB
          exact ChangeKind.noConfusion (congrArg ChangeRecord.change_kind heq)
      · obtain ⟨x, hx, heq⟩ := List.mem_map.mp hC
        exact ChangeKind.noConfusion (congrArg ChangeRecord.change_kind heq)
    · obtain ⟨x, hx, heq⟩ := List.mem_map.mp hD
      have hxr : x = r := Option.some.inj (congrArg ChangeRecord.new heq)
      subst hxr
      exact hx
  · intro h
    exact List.mem_append.mpr (Or.inr (List.mem_map.mpr ⟨r, h, rfl⟩))

theorem any_path_iff (moves : List MovePair) (f : MovePair → List String) (p : List String) :
    (moves.any (fun m => decide (f m = p)) = true) ↔ ∃ m ∈ moves, f m = p := by
  rw [List.any_eq_true]
  constructor
  · intro ⟨m, hm, hd⟩
    exact ⟨m, hm, of_decide_eq_true hd⟩
  · intro ⟨m, hm, hd⟩
    exact ⟨m, hm, decide_eq_true hd⟩

/-- C2: move resolution is the deterministic greedy procedure: the
qualifying pairs are arranged in descending score order with the
before-path/after-path tie-break (the sorted list is pairLe-sorted and a
permutation of the qualifying pairs); the emitted moves are a
subsequence of that sorted list (greedy in-order processing); every
emitted move qualifies (its sides come from the candidate lists and its
score is the pair's similarity, at or above the threshold); each
before-side and each after-side is claimed by at most one move; and in the
final change set an unclaimed removed-candidate appears as Removed and an
unclaimed added-candidate as Added, exactly when no move claimed it.  The
whole resolution is a pure function of the inputs, hence deterministic. -/
theorem greedy_move_resolution :
    (∀ (o : DiffOptions) (rem add : List NodeRecord),
      List.Sorted pairLe (sortedPairs o rem add) ∧
      List.Perm (sortedPairs o rem add) (qualifyingPairs o rem add) ∧
      List.Sublist (detectMoves o rem add) (sortedPairs o rem add) ∧
      (∀ m ∈ detectMoves o rem add,
        m.before ∈ rem ∧ m.after ∈ add ∧ m.score = similarity_score m.before m.after ∧
          m.score.geRat o.move_threshold) ∧
      ((detectMoves o rem add).map (fun m => m.before.path)).Nodup ∧
      ((detectMoves o rem add).map (fun m => m.after.path)).Nodup) ∧
    (∀ (o : DiffOptions) (b a : List NodeRecord), o.ignore_moves = false →
      (∀ r ∈ removed_candidates b a,
        (removedRecord r ∈ snapshot_diff o b a ↔
          ¬ ∃ m ∈ detectMoves o (removed_candidates b a) (added_candidates b a),
            m.before.path = r.path)) ∧
      (∀ r ∈ added_candidates b a,
        (addedRecord r ∈ snapshot_diff o b a ↔
          ¬ ∃ m ∈ detectMoves o (removed_candidates b a) (added_candidates b a),
            m.after.path = r.path))) := by
  constructor
  · intro o rem add
    have hsub : List.Sublist (detectMoves o rem add) (sortedPairs o rem add) :=
      resolveGreedy_sublist _ [] []
    refine ⟨sortedPairs_sorted o rem add, sortedPairs_perm o rem add, hsub, ?_, ?_, ?_⟩
    · intro m hm
      have hm2 : m ∈ sortedPairs o rem add := hsub.subset hm
      have hm3 : m ∈ qualifyingPairs o rem add := (sortedPairs_perm o rem add).mem_iff.mp hm2
      exact mem_qualifyingPairs hm3
    · exact (resolveGreedy_claims (sortedPairs o rem add) [] []).2.1
    · exact (resolveGreedy_claims (sortedPairs o rem add) [] []).2.2
  · intro o b a hign
    have hmv : diffMoves o b a =
        detectMoves o (removed_candidates b a) (added_candidates b a) := by
      unfold diffMoves
      rw [hign]
      rfl
    constructor
    · intro r hr
      rw [removedRecord_mem_snapshot, List.mem_filter, hmv]
      constructor
      · rintro ⟨-, hfilter⟩ hex
        have hany : ((detectMoves o (removed_candidates b a) (added_candidates b a)).any
            (fun m => decide (m.before.path = r.path))) = true :=
          (any_path_iff _ _ _).mpr hex
        rw [hany] at hfilter
        exact absurd hfilter (by decide)
      · intro hnex
        refine ⟨hr, ?_⟩
        have hany : ((detectMoves o (removed_candidates b a) (added_candidates b a)).any
            (fun m => decide (m.before.path = r.path))) = false := by
          by_contra hc
          rw [Bool.not_eq_false] at hc
          exact hnex ((any_path_iff _ _ _).mp hc)
        rw [hany]
        rfl
    · intro r hr
      rw [addedRecord_mem_snapshot, List.mem_filter, hmv]
      constructor
      · rintro ⟨-, hfilter⟩ hex
        have hany : ((detectMoves o (removed_candidates b a) (added_candidates b a)).any
            (fun m => decide (m.after.path = r.path))) = true :=
          (any_path_iff _ _ _).mpr hex
        rw [hany] at hfilter
        exact absurd hfilter (by decide)
      · intro hnex
        refine ⟨hr, ?_⟩
        have hany : ((detectMoves o (removed_candidates b a) (added_candidates b a)).any
            (fun m => decide (m.after.path = r.path))) = false := by
          by_contra hc
          rw [Bool.not_eq_false] at hc
          exact hnex ((any_path_iff _ _ _).mp hc)
        rw [hany]
        rfl

/-- C2 witness: the resolution clauses hold at the concrete rename
scenario. -/
theorem greedy_move_resolution_witness :
    (List.Sorted pairLe (sortedPairs { move_threshold := halfThreshold } [oldRec] [newRec]) ∧
      List.Perm (sortedPairs { move_threshold := halfThreshold } [oldRec] [newRec])
        (qualifyingPairs { move_threshold := halfThreshold } [oldRec] [newRec]) ∧
      List.Sublist (detectMoves { move_threshold := halfThreshold } [oldRec] [newRec])
        (sortedPairs { move_threshold := halfThreshold } [oldRec] [newRec]) ∧
      (∀ m ∈ detectMoves { move_threshold := halfThreshold } [oldRec] [newRec],
        m.before ∈ [oldRec] ∧ m.after ∈ [newRec] ∧
          m.score = similarity_score m.before m.after ∧
          m.score.geRat ({ move_threshold := halfThreshold } : DiffOptions).move_threshold) ∧
      ((detectMoves { move_threshold := halfThreshold } [oldRec] [newRec]).map
        (fun m => m.before.path)).Nodup ∧
      ((detectMoves { move_threshold := halfThreshold } [oldRec] [newRec]).map
        (fun m => m.after.path)).Nodup) ∧
    ((∀ r ∈ removed_candidates [oldRec] [newRec],
        (removedRecord r ∈ snapshot_diff { move_threshold := halfThreshold } [oldRec] [newRec] ↔
          ¬ ∃ m ∈ detectMoves { move_threshold := halfThreshold }
              (removed_candidates [oldRec] [newRec]) (added_candidates [oldRec] [newRec]),
            m.before.path = r.path)) ∧
      (∀ r ∈ added_candidates [oldRec] [newRec],
        (addedRecord r ∈ snapshot_diff { move_threshold := halfThreshold } [oldRec] [newRec] ↔
          ¬ ∃ m ∈ detectMoves { move_threshold := halfThreshold }
              (removed_candidates [oldRec] [newRec]) (added_candidates [oldRec] [newRec]),
            m.after.path = r.path))) :=
  ⟨greedy_move_resolution.1 { move_threshold := halfThreshold } [oldRec] [newRec],
   greedy_move_resolution.2 { move_threshold := halfThreshold } [oldRec] [newRec] rfl⟩

/-- C3: a path present in both snapshots is classified TypeChanged exactly
when the kinds differ; Modified exactly when the kinds agree and the size
gap exceeds size_threshold, the time gap exceeds time_threshold, or both
fingerprints are present and differ; Unchanged otherwise.  For
B = [d (Directory), d/f1 (File, size 10)] and A = [d (Directory)] (with
unchanged records shown), the diff is exactly Unchanged("d"),
Removed("d/f1"). -/
theorem diff_classification :
    (∀ (o : DiffOptions) (b a : NodeRecord),
      (classify_common o b a = .typeChanged ↔ b.kind ≠ a.kind) ∧
      (classify_common o b a = .modified ↔ (b.kind = a.kind ∧ modifiedCond o b a)) ∧
      (classify_common o b a = .unchanged ↔ (b.kind = a.kind ∧ ¬ modifiedCond o b a))) ∧
    snapshot_diff { show_unchanged := true } [dirRec, f1Rec] [dirRec] =
      [⟨some dirRec, some dirRec, .unchanged, Option.none⟩, removedRecord f1Rec] := by
  refine ⟨?_, by decide⟩
  intro o b a
  unfold classify_common
  by_cases hk : b.kind ≠ a.kind
  · rw [if_pos hk]
    exact ⟨by simp [hk], by simp [hk], by simp [hk]⟩
  · rw [if_neg hk]
    push_neg at hk
    by_cases hm : modifiedCond o b a
    · rw [if_pos hm]
      exact ⟨by simp [hk], by simp [hk, hm], by simp [hm]⟩
    · rw [if_neg hm]
      exact ⟨by simp [hk], by simp [hm], by simp [hk, hm]⟩

/-- C3 witness: the classification clauses hold at the concrete records of
the directory-emptied example. -/
theorem diff_classification_witness :
    (classify_common {} dirRec f1Rec = .typeChanged ↔ dirRec.kind ≠ f1Rec.kind) ∧
    (classify_common {} dirRec f1Rec = .modified ↔
      (dirRec.kind = f1Rec.kind ∧ modifiedCond {} dirRec f1Rec)) ∧
    (classify_common {} dirRec f1Rec = .unchanged ↔
      (dirRec.kind = f1Rec.kind ∧ ¬ modifiedCond {} dirRec f1Rec)) :=
  diff_classification.1 {} dirRec f1Rec

/-- C4: for B = [a/old.txt (File, size 100, time T)] and
A = [a/new.txt (File, size 100, time T)]: with move_threshold = 0.5 the
diff is exactly one Moved record from a/old.txt to a/new.txt (and no Added
or Removed records); with ignore_moves = true it is exactly
Removed(a/old.txt) followed by Added(a/new.txt). -/
theorem move_detection_example :
    snapshot_diff { move_threshold := halfThreshold } [oldRec] [newRec] =
      [movedRecord ⟨oldRec, newRec, similarity_score oldRec newRec⟩] ∧
    snapshot_diff { ignore_moves := true } [oldRec] [newRec] =
      [removedRecord oldRec, addedRecord newRec] :=
  ⟨by decide, by decide⟩

/-- C6: option validation succeeds exactly when move_threshold lies in
[0, 1] and the size/time thresholds are nonnegative; an invalid
configuration makes the diff fail with ConfigError before anything else;
with a valid configuration a duplicated path in either collection is
rejected with DuplicatePathError before diffing; and for a valid
configuration and duplicate-free collections the diff always succeeds,
returning the pure change set.  Duplicate-freedom is exactly Nodup of the
path lists. -/
theorem diff_failure_semantics :
    (∀ o : DiffOptions, validate_options o = .ok () ↔
      (0 ≤ o.move_threshold ∧ o.move_threshold ≤ 1 ∧
        0 ≤ o.size_threshold ∧ 0 ≤ o.time_threshold)) ∧
    (∀ (o : DiffOptions) (b a : List NodeRecord),
      (o.move_threshold < 0 ∨ 1 < o.move_threshold ∨
        o.size_threshold < 0 ∨ o.time_threshold < 0) →
      run_diff o b a = .error .configError) ∧
    (∀ (o : DiffOptions) (b a : List NodeRecord) (p : List String),
      validate_options o = .ok () → firstDuplicate b = some p →
      run_diff o b a = .error (.duplicatePath p)) ∧
    (∀ (o : DiffOptions) (b a : List NodeRecord) (p : List String),
      validate_options o = .ok () → firstDuplicate b = Option.none →
      firstDuplicate a = some p →
      run_diff o b a = .error (.duplicatePath p)) ∧
    (∀ (o : DiffOptions) (b a : List NodeRecord),
      validate_options o = .ok () → firstDuplicate b = Option.none →
      firstDuplicate a = Option.none →
      run_diff o b a = .ok (snapshot_diff o b a)) ∧
    (∀ l : List NodeRecord,
      firstDuplicate l = Option.none ↔ (l.map NodeRecord.path).Nodup) := by
  have hval : ∀ o : DiffOptions, validate_options o = .ok () ↔
      (0 ≤ o.move_threshold ∧ o.move_threshold ≤ 1 ∧
        0 ≤ o.size_threshold ∧ 0 ≤ o.time_threshold) := by
    intro o
    unfold validate_options
    split_ifs with h1 h2 h3
    · constructor
      · intro h
        exact h.elim
      · intro ⟨ha, hb, _, _⟩
        exfalso
        rcases h1 with h1 | h1
        · exact absurd h1 (not_lt.mpr ha)
        · exact absurd h1 (not_lt.mpr hb)
    · constructor
      · intro h
        exact h.elim
      · intro ⟨_, _, hc, _⟩
        exact absurd h2 (not_lt.mpr hc)
    · constructor
      · intro h
        exact h.elim
      · intro ⟨_, _, _, hd⟩
        exact absurd h3 (not_lt.mpr hd)
    · push_neg at h1
      constructor
      · intro _
        exact ⟨h1.1, h1.2, not_lt.mp h2, not_lt.mp h3⟩
      · intro _
        rfl
  have hvalerr : ∀ o : DiffOptions,
      (o.move_threshold < 0 ∨ 1 < o.move_threshold ∨
        o.size_threshold < 0 ∨ o.time_threshold < 0) →
      validate_options o = .error .configError := by
    intro o h
    have : validate_options o = .ok () ∨ validate_options o = .error .configError := by
      unfold validate_options
      split_ifs <;> simp
    rcases this with hok | herr
    · exfalso
      obtain ⟨ha, hb, hc, hd⟩ := (hval o).mp hok
      rcases h with h | h | h | h
      · exact absurd h (not_lt.mpr ha)
      · exact absurd h (not_lt.mpr hb)
      · exact absurd h (not_lt.mpr hc)
      · exact absurd h (not_lt.mpr hd)
    · exact herr
  refine ⟨hval, ?_, ?_, ?_, ?_, ?_⟩
  · intro o b a h
    show (match validate_options o with
      | .error e => Except.error e
      | .ok _ =>
        match firstDuplicate b with
        | some p => Except.error (DiffError.duplicatePath p)
        | Option.none =>
          match firstDuplicate a with
          | some p => Except.error (DiffError.duplicatePath p)
          | Option.none => Except.ok (snapshot_diff o b a)) = Except.error DiffError.configError
    rw [hvalerr o h]
  · intro o b a p hok hdup
    show (match validate_options o with
      | .error e => Except.error e
      | .ok _ =>
        match firstDuplicate b with
        | some p => Except.error (DiffError.duplicatePath p)
        | Option.none =>
          match firstDuplicate a with
          | some p => Except.error (DiffError.duplicatePath p)
          | Option.none => Except.ok (snapshot_diff o b a)) =
      Except.error (DiffError.duplicatePath p)
    rw [hok, hdup]
  · intro o b a p hok hb ha
    show (match validate_options o with
      | .error e => Except.error e
      | .ok _ =>
        match firstDuplicate b with
        | some p => Except.error (DiffError.duplicatePath p)
        | Option.none =>
          match firstDuplicate a with
          | some p => Except.error (DiffError.duplicatePath p)
          | Option.none => Except.ok (snapshot_diff o b a)) =
      Except.error (DiffError.duplicatePath p)
    rw [hok, hb, ha]
  · intro o b a hok hb ha
    show (match validate_options o with
      | .error e => Except.error e
      | .ok _ =>
        match firstDuplicate b with
        | some p => Except.error (DiffError.duplicatePath p)
        | Option.none =>
          match firstDuplicate a with
          | some p => Except.error (DiffError.duplicatePath p)
          | Option.none => Except.ok (snapshot_diff o b a)) = Except.ok (snapshot_diff o b a)
    rw [hok, hb, ha]
  · intro l
    induction l with
    | nil => simp [firstDuplicate]
    | cons r rs ih =>
      by_cases hany : rs.any (fun x => decide (x.path = r.path))
      · have h1 : firstDuplicate (r :: rs) = some r.path := by
          show (if (rs.any fun x => decide (x.path = r.path)) = true then some r.path
            else firstDuplicate rs) = some r.path
          rw [if_pos hany]
        rw [h1]
        simp only [List.map_cons, List.nodup_cons]
        constructor
        · intro h
          exact Option.noConfusion h
        · intro ⟨hmem, _⟩
          exfalso
          obtain ⟨x, hx, hpx⟩ := List.any_eq_true.mp hany
          exact hmem (List.mem_map.mpr ⟨x, hx, of_decide_eq_true hpx⟩)
      · have h1 : firstDuplicate (r :: rs) = firstDuplicate rs := by
          show (if (rs.any fun x => decide (x.path = r.path)) = true then some r.path
            else firstDuplicate rs) = firstDuplicate rs
          rw [if_neg hany]
        rw [h1, ih]
        simp only [List.map_cons, List.nodup_cons]
        constructor
        · intro h
          refine ⟨?_, h⟩
          intro hmem
          obtain ⟨x, hx, hpx⟩ := List.mem_map.mp hmem
          exact hany (List.any_eq_true.mpr ⟨x, hx, decide_eq_true hpx⟩)
        · exact And.right

/-- A concrete negative move threshold for the failure-semantics witness. -/
def negThreshold : ℚ := ⟨-1, 2, by norm_num, by norm_num⟩

/-- C6 witness: the failure clauses hold at concrete configurations and
collections. -/
theorem diff_failure_semantics_witness :
    (validate_options {} = .ok () ↔
      (0 ≤ ({} : DiffOptions).move_threshold ∧ ({} : DiffOptions).move_threshold ≤ 1 ∧
        0 ≤ ({} : DiffOptions).size_threshold ∧ 0 ≤ ({} : DiffOptions).time_threshold)) ∧
    run_diff { move_threshold := negThreshold } [dirRec] [] = .error .configError ∧
    run_diff {} [dirRec, dirRec] [] = .error (.duplicatePath ["d"]) ∧
    run_diff {} [dirRec] [dirRec, dirRec] = .error (.duplicatePath ["d"]) ∧
    run_diff {} [dirRec, f1Rec] [dirRec] = .ok (snapshot_diff {} [dirRec, f1Rec] [dirRec]) ∧
    (firstDuplicate [dirRec, f1Rec] = Option.none ↔
      ([dirRec, f1Rec].map NodeRecord.path).Nodup) :=
  ⟨diff_failure_semantics.1 {},
   diff_failure_semantics.2.1 { move_threshold := negThreshold } [dirRec] [] (by decide),
   diff_failure_semantics.2.2.1 {} [dirRec, dirRec] [] ["d"] (by decide) (by decide),
   diff_failure_semantics.2.2.2.1 {} [dirRec] [dirRec, dirRec] ["d"] (by decide) (by decide)
     (by decide),
   diff_failure_semantics.2.2.2.2.1 {} [dirRec, f1Rec] [dirRec] (by decide) (by decide)
     (by decide),
   diff_failure_semantics.2.2.2.2.2 [dirRec, f1Rec]⟩

end RusTree
